import Mathlib

/-!
# Verification of the trend-analysis core of a technical-indicators library

This file gives a shallow embedding, in Lean 4, of the trend-analysis core of a
Rust technical-indicators library (`chart_trends.rs`, `trend_indicators.rs`,
`validation.rs`, `basic_indicators.rs`), and proves or refutes a list of claims
about it.

Modelling conventions:
* `f64` values are modelled as exact rationals (`ℚ`) wherever finite rational
  inputs keep them finite.  In the directional-movement pipeline a division by
  a zero sum produces `NaN`/infinity even from finite inputs, so that pipeline
  computes in the type `FQ` (a rational, a signed infinity, or NaN) with
  IEEE-754 propagation rules spelled out in the `fq*` definitions.
* Fallible code is modelled with `Except RtErr`: `RtErr.panik` models a Rust
  panic (including debug-mode arithmetic-overflow panics and `unwrap` on
  `None`), `RtErr.err` models a returned `TechnicalIndicatorError`.
* `usize` is modelled as `ℕ`; where the source can underflow a `usize`
  subtraction, the model checks the bound explicitly and panics, matching
  debug-mode Rust.
* `f64::sqrt` (used only to produce the RMSE that feeds threshold comparisons)
  has no exact counterpart on `ℚ`; it is passed as an explicit function
  parameter `sqrtf`, and every theorem about the functions that use it
  quantifies over `sqrtf`, hence covers the actual square root.
-/

/-- Mirror of `TechnicalIndicatorError` from `error.rs`. -/
inductive TIError where
  | EmptyData (name : String)
  | MismatchedLength (names : List (String × ℕ))
  | InvalidPeriod (period : ℕ) (data_len : ℕ) (reason : String)
  | InvalidValue (name : String) (value : ℚ) (reason : String)
  | UnsupportedType (type_name : String)
  | Custom (message : String)
  deriving DecidableEq

/-- A runtime outcome of running a piece of the Rust library: either a panic
(with its message) or an error value actually returned to the caller. -/
inductive RtErr where
  | panik (msg : String)
  | err (e : TIError)
  deriving DecidableEq

/-- Mirror of `validation::assert_period`. -/
def assert_period (period : ℕ) (data_len : ℕ) : Except TIError Unit :=
  if period = 0 then
    .error (.InvalidPeriod period data_len "must be greater than 0")
  else if period > data_len then
    .error (.InvalidPeriod period data_len "cannot be longer than data length")
  else
    .ok ()

/-- Mirror of `validation::assert_non_empty`. -/
def assert_non_empty {α : Type} (name : String) (slice : List α) : Except TIError Unit :=
  if slice.isEmpty then .error (.EmptyData name) else .ok ()

/-- Mirror of `basic_indicators::single::max`.  The source filters out `NaN`
and folds `f64::max` starting from `NaN`; on a nonempty list of finite values
this is the maximum, and on the empty list it is `NaN`.  `ℚ` has no `NaN`, so
the empty case returns a junk value `0`; every use site below either cannot
pass an empty list or (in `peaks`) hits the `rposition ... unwrap` panic first,
which is modelled explicitly there. -/
def singleMax : List ℚ → ℚ
  | [] => 0
  | x :: xs => xs.foldl max x

/-- Mirror of `basic_indicators::single::min` (see `singleMax` for the empty
case). -/
def singleMin : List ℚ → ℚ
  | [] => 0
  | x :: xs => xs.foldl min x

/-- Mirror of `basic_indicators::single::mean`: sum divided by length.  (The
source computes `assert_non_empty` and discards the `Result`; on the empty
list it divides by zero, which yields `NaN` in `f64` and junk `0` here.  All
use sites below guarantee a nonempty list.) -/
def singleMean (prices : List ℚ) : ℚ :=
  prices.sum / prices.length

/-- Index of the rightmost occurrence of `v` in a list, mirroring
`iter().rposition(|&x| x == v)` from the source: `none` when `v` is absent. -/
def rposAux : List ℚ → ℚ → Option ℕ
  | [], _ => none
  | x :: xs, v =>
    match rposAux xs v with
    | some k => some (k + 1)
    | none => if x = v then some 0 else none

/-- The window of width `period` starting at `i`, i.e. `prices[i..i+period]`. -/
def win {α : Type} (prices : List α) (period i : ℕ) : List α :=
  (prices.drop i).take period

/-- Loop state of the `peaks` / `valleys` scans: the output vector, the index
of the last accepted extremum (`0` doubles as the "none yet" sentinel in the
source) and its value. -/
structure ExtScan where
  out : List (ℚ × ℕ)
  lastIdx : ℕ
  lastVal : ℚ
  deriving DecidableEq

/-- One iteration of the `peaks` loop body (`chart_trends.rs`).  The
`rposition ... unwrap()` is a panic when the window has no element equal to its
maximum — with finite inputs this happens exactly for the empty window
(`period == 0`), where the source's `max` returns `NaN`. -/
def peakStep (prices : List ℚ) (period closest : ℕ) (st : ExtScan) (i : ℕ) :
    Except RtErr ExtScan :=
  let window := win prices period i
  let peak := singleMax window
  match rposAux window peak with
  | none => .error (.panik "unwrap on None")
  | some li =>
    let idx := i + li
    if st.lastIdx ≠ 0 then
      if idx ≤ st.lastIdx + closest then
        if peak < st.lastVal then .ok { st with lastIdx := idx }
        else if st.lastVal < peak then
          .ok { out := st.out.dropLast ++ [(peak, idx)], lastIdx := idx, lastVal := peak }
        else .ok st
      else if (peak, idx) ∈ st.out then .ok st
      else .ok { out := st.out ++ [(peak, idx)], lastIdx := idx, lastVal := peak }
    else .ok { out := st.out ++ [(peak, idx)], lastIdx := idx, lastVal := peak }

/-- The `peaks` loop, `steps` iterations starting at window index `i`. -/
def peaksGo (prices : List ℚ) (period closest : ℕ) :
    ℕ → ℕ → ExtScan → Except RtErr ExtScan
  | _, 0, st => .ok st
  | i, steps + 1, st =>
    match peakStep prices period closest st i with
    | .error e => .error e
    | .ok st2 => peaksGo prices period closest (i + 1) steps st2

/-- Mirror of `chart_trends::peaks`.  The source calls `assert_period` but
discards its `Result` (the binding below mirrors that); with `period >
len` the loop bound `length - period` underflows, a debug-mode panic. -/
def peaks (prices : List ℚ) (period closest : ℕ) : Except RtErr (List (ℚ × ℕ)) :=
  let _ := assert_period period prices.length
  if period > prices.length then .error (.panik "subtract with overflow")
  else
    match peaksGo prices period closest 0 (prices.length - period + 1) ⟨[], 0, 0⟩ with
    | .error e => .error e
    | .ok st => .ok st.out

/-- One iteration of the `valleys` loop body (`chart_trends.rs`), the mirror
image of `peakStep`. -/
def valleyStep (prices : List ℚ) (period closest : ℕ) (st : ExtScan) (i : ℕ) :
    Except RtErr ExtScan :=
  let window := win prices period i
  let valley := singleMin window
  match rposAux window valley with
  | none => .error (.panik "unwrap on None")
  | some li =>
    let idx := i + li
    if st.lastIdx ≠ 0 then
      if idx ≤ st.lastIdx + closest then
        if st.lastVal < valley then .ok { st with lastIdx := idx }
        else if valley < st.lastVal then
          .ok { out := st.out.dropLast ++ [(valley, idx)], lastIdx := idx, lastVal := valley }
        else .ok st
      else if (valley, idx) ∈ st.out then .ok st
      else .ok { out := st.out ++ [(valley, idx)], lastIdx := idx, lastVal := valley }
    else .ok { out := st.out ++ [(valley, idx)], lastIdx := idx, lastVal := valley }

/-- The `valleys` loop. -/
def valleysGo (prices : List ℚ) (period closest : ℕ) :
    ℕ → ℕ → ExtScan → Except RtErr ExtScan
  | _, 0, st => .ok st
  | i, steps + 1, st =>
    match valleyStep prices period closest st i with
    | .error e => .error e
    | .ok st2 => valleysGo prices period closest (i + 1) steps st2

/-- Mirror of `chart_trends::valleys` (see `peaks`). -/
def valleys (prices : List ℚ) (period closest : ℕ) : Except RtErr (List (ℚ × ℕ)) :=
  let _ := assert_period period prices.length
  if period > prices.length then .error (.panik "subtract with overflow")
  else
    match valleysGo prices period closest 0 (prices.length - period + 1) ⟨[], 0, 0⟩ with
    | .error e => .error e
    | .ok st => .ok st.out

/-- Mirror of `chart_trends::get_trend_line`: OLS simple linear regression of
value against index.  (When all indices coincide the source divides by zero,
yielding `NaN`; on `ℚ` division by zero yields `0`.  The claims below only
compare this function against itself, so the convention is immaterial.) -/
def get_trend_line (p : List (ℚ × ℕ)) : ℚ × ℚ :=
  let length : ℚ := p.length
  let mean_x := (p.map fun yx => (yx.2 : ℚ)).sum / length
  let mean_y := (p.map fun yx => yx.1).sum / length
  let nd := p.foldl
    (fun nd yx =>
      let x : ℚ := yx.2
      let dx := x - mean_x
      (nd.1 + dx * (yx.1 - mean_y), nd.2 + dx * dx))
    ((0 : ℚ), (0 : ℚ))
  let slope := nd.1 / nd.2
  (slope, mean_y - slope * mean_x)

/-- Mirror of `chart_trends::goodness_of_fit`: adjusted R², RMSE and
Durbin–Watson for an OLS fit.  `sqrtf` abstracts `f64::sqrt` (see the file
header); the `1e-10` guards are the source's own. -/
def goodness_of_fit (sqrtf : ℚ → ℚ) (indexed_points : List (ℚ × ℕ))
    (trend : ℚ × ℚ) : ℚ × ℚ × ℚ :=
  let n := indexed_points.length
  if n < 2 then (0, 0, 2)
  else
    let trend_line := indexed_points.map fun yx => trend.2 + trend.1 * (yx.2 : ℚ)
    let observed := indexed_points.map fun yx => yx.1
    let observed_mean := singleMean observed
    let st := (List.range n).foldl
      (fun (a : ℚ × ℚ) i =>
        let resid := observed.getD i 0 - trend_line.getD i 0
        let total := observed.getD i 0 - observed_mean
        (a.1 + resid ^ 2, a.2 + total ^ 2))
      ((0 : ℚ), (0 : ℚ))
    let sum_sq_residuals := st.1
    let total_squares := st.2
    let degrees_of_freedom := max ((n : ℚ) - 2) 1
    let r_squared :=
      if total_squares > 1 / 10 ^ 10 then max (1 - sum_sq_residuals / total_squares) 0 else 0
    let adjusted_r_squared :=
      if n > 2 then 1 - (1 - r_squared) * ((n : ℚ) - 1) / degrees_of_freedom else r_squared
    let durbin_watson :=
      if n > 1 then
        let dw_num := (List.range (n - 1)).foldl
          (fun acc j =>
            let i := j + 1
            acc + ((observed.getD i 0 - trend_line.getD i 0) -
              (observed.getD (i - 1) 0 - trend_line.getD (i - 1) 0)) ^ 2)
          (0 : ℚ)
        if sum_sq_residuals > 1 / 10 ^ 10 then dw_num / sum_sq_residuals else 2
      else 2
    let rmse := sqrtf (sum_sq_residuals / (n : ℚ))
    (adjusted_r_squared, rmse, durbin_watson)

/-- Mirror of `chart_trends::TrendBreakConfig`. -/
structure TrendBreakConfig where
  max_outliers : ℕ
  soft_adj_r_squared_minimum : ℚ
  hard_adj_r_squared_minimum : ℚ
  soft_rmse_multiplier : ℚ
  hard_rmse_multiplier : ℚ
  soft_durbin_watson_min : ℚ
  soft_durbin_watson_max : ℚ
  hard_durbin_watson_min : ℚ
  hard_durbin_watson_max : ℚ

/-- `f64::MAX`, the initial `previous_rmse` of `break_down_trends`. -/
def f64MAX : ℚ := 2 ^ 1024 - 2 ^ 971

/-- The indexed points of a segment: `(start..=index).map(|x| (prices[x], x))`
from the source.  (`getD` is sound: the source only evaluates this with
`index < prices.len()`, where `prices[x]` cannot panic.) -/
def segPoints (prices : List ℚ) (s e : ℕ) : List (ℚ × ℕ) :=
  (List.range' s (e + 1 - s)).map fun x => (prices.getD x 0, x)

/-- Loop state of `break_down_trends`. -/
structure BdtState where
  outliers : List ℕ
  trends : List (ℕ × ℕ × ℚ × ℚ)
  slope : ℚ
  icept : ℚ
  startIdx : ℕ
  endIdx : ℕ
  points : List (ℚ × ℕ)
  prevRmse : ℚ

/-- One iteration of the `break_down_trends` loop body.  The three `continue`
paths of the source (`index == 0`, and the outlier skip) are the branches that
leave `endIdx` untouched. -/
def bdtStep (sqrtf : ℚ → ℚ) (cfg : TrendBreakConfig) (prices : List ℚ)
    (st : BdtState) (index : ℕ) (price : ℚ) : BdtState :=
  let points := st.points ++ [(price, index)]
  if index = 0 then { st with points := points }
  else if index > st.endIdx then
    let current_trend := get_trend_line points
    let g := goodness_of_fit sqrtf points current_trend
    let adjusted_r_squared := g.1
    let rmse := g.2.1
    let durbin_watson := g.2.2
    let soft_break := adjusted_r_squared < cfg.soft_adj_r_squared_minimum ∧
      rmse > cfg.soft_rmse_multiplier * st.prevRmse ∧
      (durbin_watson < cfg.soft_durbin_watson_min ∨
        durbin_watson > cfg.soft_durbin_watson_max)
    let hard_break := adjusted_r_squared < cfg.hard_adj_r_squared_minimum ∨
      rmse > cfg.hard_rmse_multiplier * st.prevRmse ∨
      (durbin_watson < cfg.hard_durbin_watson_min ∨
        durbin_watson > cfg.hard_durbin_watson_max)
    if soft_break ∨ hard_break then
      if st.outliers.length < cfg.max_outliers then
        { st with outliers := st.outliers ++ [index], points := points.dropLast }
      else
        let start2 := st.endIdx
        let points2 := segPoints prices start2 index
        let ct2 := get_trend_line points2
        let prev2 :=
          if points2.length > 2 then (goodness_of_fit sqrtf points2 ct2).2.1 else f64MAX
        { outliers := [],
          trends := st.trends ++ [(st.startIdx, st.endIdx, st.slope, st.icept)],
          slope := ct2.1, icept := ct2.2,
          startIdx := start2, endIdx := index,
          points := points2, prevRmse := prev2 }
    else
      { st with
          points := points,
          prevRmse := rmse,
          slope := current_trend.1,
          icept := current_trend.2,
          endIdx := index }
  else { st with points := points, endIdx := index }

/-- The `break_down_trends` loop over the enumerated price list. -/
def bdtGo (sqrtf : ℚ → ℚ) (cfg : TrendBreakConfig) (prices : List ℚ) :
    ℕ → List ℚ → BdtState → BdtState
  | _, [], st => st
  | index, price :: rest, st =>
    bdtGo sqrtf cfg prices (index + 1) rest (bdtStep sqrtf cfg prices st index price)

/-- Mirror of `chart_trends::break_down_trends`. -/
def break_down_trends (sqrtf : ℚ → ℚ) (prices : List ℚ) (cfg : TrendBreakConfig) :
    Except RtErr (List (ℕ × ℕ × ℚ × ℚ)) :=
  if prices = [] then .error (.panik "Prices cannot be empty")
  else
    let final := bdtGo sqrtf cfg prices 0 prices ⟨[], [], 0, 0, 0, 1, [], f64MAX⟩
    .ok (final.trends ++ [(final.startIdx, final.endIdx, final.slope, final.icept)])

/-- `SegChain a segs b`: the segments chain from `a` to `b` — the first starts
at `a`, the end index of each segment equals the start index of the next, and
the last ends at `b` (for the empty list, `a = b`). -/
def SegChain : ℕ → List (ℕ × ℕ × ℚ × ℚ) → ℕ → Prop
  | a, [], b => a = b
  | a, s :: t, b => s.1 = a ∧ SegChain s.2.1 t b

instance instDecSegChain : ∀ (a : ℕ) (l : List (ℕ × ℕ × ℚ × ℚ)) (b : ℕ),
    Decidable (SegChain a l b)
  | a, [], b => inferInstanceAs (Decidable (a = b))
  | _, s :: t, b => @instDecidableAnd _ _ _ (instDecSegChain s.2.1 t b)

/-- Mirror of `Position` from `types.rs`. -/
inductive Position where
  | Short
  | Long
  deriving DecidableEq

/-- Mirror of `trend_indicators::single::long_parabolic_time_price_system`. -/
def long_parabolic_time_price_system
    (previous_sar extreme_point acceleration_factor low : ℚ) : ℚ :=
  min (previous_sar + acceleration_factor * (extreme_point - previous_sar)) low

/-- Mirror of `trend_indicators::single::short_parabolic_time_price_system`. -/
def short_parabolic_time_price_system
    (previous_sar extreme_point acceleration_factor high : ℚ) : ℚ :=
  max (previous_sar - acceleration_factor * (previous_sar - extreme_point)) high

/-- The slice `l[a..b]` of a price list.  (Rust slicing panics when
`a > b` or `b > len`; every use below is in bounds for the states the bulk
scans actually reach, as the theorems' hypotheses record.) -/
def sliceQ (l : List ℚ) (a b : ℕ) : List ℚ :=
  (l.drop a).take (b - a)

/-- Loop state of the bulk `parabolic_time_price_system` scan. -/
structure PtpsState where
  af : ℚ
  pos : Position
  posStart : ℕ
  sars : List ℚ
  deriving DecidableEq

/-- One iteration (bar `i ≥ 1`) of the bulk `parabolic_time_price_system`
loop (`trend_indicators.rs`), with `afMax` already lowered by the source's
`0.0000001` epsilon. -/
def ptpsStep (highs lows : List ℚ) (afStart afMax afStep : ℚ)
    (st : PtpsState) (i : ℕ) : PtpsState :=
  let previous_sar := st.sars.getD (i - 1) 0
  if st.pos = .Short ∧ highs.getD i 0 > previous_sar then
    let period_max := highs.getD i 0
    let previous_min := singleMin (sliceQ lows (i - 1) (i + 1))
    let pivoted_sar := singleMin (sliceQ lows st.posStart i)
    { af := afStart, pos := .Long, posStart := i,
      sars := st.sars ++
        [long_parabolic_time_price_system pivoted_sar period_max afStart previous_min] }
  else if st.pos = .Short then
    let pm0 := singleMin (sliceQ lows st.posStart i)
    let pa :=
      if pm0 > lows.getD i 0 then
        (lows.getD i 0, if st.af ≤ afMax then st.af + afStep else st.af)
      else (pm0, st.af)
    let previous_max := singleMax (sliceQ highs (i - 1) (i + 1))
    { st with
        af := pa.2,
        sars := st.sars ++
          [short_parabolic_time_price_system previous_sar pa.1 pa.2 previous_max] }
  else if st.pos = .Long ∧ lows.getD i 0 < previous_sar then
    let period_min := lows.getD i 0
    let previous_max := singleMax (sliceQ highs (i - 1) (i + 1))
    let pivoted_sar := singleMax (sliceQ highs st.posStart i)
    { af := afStart, pos := .Short, posStart := i,
      sars := st.sars ++
        [short_parabolic_time_price_system pivoted_sar period_min afStart previous_max] }
  else
    let pm0 := singleMax (sliceQ highs st.posStart i)
    let pa :=
      if pm0 < highs.getD i 0 then
        (highs.getD i 0, if st.af ≤ afMax then st.af + afStep else st.af)
      else (pm0, st.af)
    let previous_min := singleMin (sliceQ lows (i - 1) (i + 1))
    { st with
        af := pa.2,
        sars := st.sars ++
          [long_parabolic_time_price_system previous_sar pa.1 pa.2 previous_min] }

/-- The bulk parabolic scan loop, `steps` bars starting at bar `i`. -/
def ptpsGo (highs lows : List ℚ) (afStart afMax afStep : ℚ) :
    ℕ → ℕ → PtpsState → PtpsState
  | _, 0, st => st
  | i, steps + 1, st =>
    ptpsGo highs lows afStart afMax afStep (i + 1) steps
      (ptpsStep highs lows afStart afMax afStep st i)

/-- Mirror of `trend_indicators::bulk::parabolic_time_price_system`. -/
def parabolic_time_price_system (highs lows : List ℚ)
    (acceleration_factor_start acceleration_factor_max acceleration_factor_step : ℚ)
    (start_position : Position) (previous_sar : ℚ) : Except RtErr (List ℚ) :=
  if highs = [] ∨ lows = [] then .error (.panik "Highs or lows cannot be empty")
  else if highs.length ≠ lows.length then
    .error (.panik "Highs and lows must be the same length")
  else
    let afMaxAdj := acceleration_factor_max - 1 / 10000000
    let first :=
      match start_position with
      | .Long =>
        if previous_sar = 0 then
          long_parabolic_time_price_system (lows.getD 0 0) (highs.getD 0 0)
            acceleration_factor_start (lows.getD 0 0)
        else
          long_parabolic_time_price_system previous_sar (highs.getD 0 0)
            acceleration_factor_start (lows.getD 0 0)
      | .Short =>
        if previous_sar = 0 then
          short_parabolic_time_price_system (highs.getD 0 0) (lows.getD 0 0)
            acceleration_factor_start (highs.getD 0 0)
        else
          short_parabolic_time_price_system previous_sar (lows.getD 0 0)
            acceleration_factor_start (highs.getD 0 0)
    .ok (ptpsGo highs lows acceleration_factor_start afMaxAdj acceleration_factor_step
      1 (highs.length - 1) ⟨acceleration_factor_start, start_position, 0, [first]⟩).sars

/-- An `f64` value as the directional-movement pipeline sees it: an exact
finite rational, a signed infinity, or NaN.  The DI quotients of
`directional_movement_system` divide by a rolling sum of true ranges that is
zero on flat data, producing infinities and NaNs that propagate through the
DX series into the smoothing step, so this part of the embedding cannot stay
inside `ℚ`. -/
inductive FQ where
  | fin (q : ℚ)
  | pinf
  | ninf
  | nan
  deriving DecidableEq

/-- IEEE-754 negation. -/
def fqNeg : FQ → FQ
  | .fin q => .fin (-q)
  | .pinf => .ninf
  | .ninf => .pinf
  | .nan => .nan

/-- IEEE-754 addition: NaN is absorbing, opposite infinities give NaN,
finite addition is exact on `ℚ`. -/
def fqAdd : FQ → FQ → FQ
  | .nan, _ => .nan
  | _, .nan => .nan
  | .pinf, .ninf => .nan
  | .ninf, .pinf => .nan
  | .pinf, _ => .pinf
  | _, .pinf => .pinf
  | .ninf, _ => .ninf
  | _, .ninf => .ninf
  | .fin a, .fin b => .fin (a + b)

/-- IEEE-754 subtraction (`x - y` is exactly `x + (-y)`). -/
def fqSub (a b : FQ) : FQ := fqAdd a (fqNeg b)

/-- `f64::abs`. -/
def fqAbs : FQ → FQ
  | .fin q => .fin |q|
  | .nan => .nan
  | _ => .pinf

/-- IEEE-754 multiplication: NaN is absorbing, `0 · ∞` is NaN, signs
multiply, finite multiplication is exact on `ℚ`. -/
def fqMul : FQ → FQ → FQ
  | .nan, _ => .nan
  | _, .nan => .nan
  | .fin a, .fin b => .fin (a * b)
  | .fin a, .pinf => if a = 0 then .nan else if 0 < a then .pinf else .ninf
  | .fin a, .ninf => if a = 0 then .nan else if 0 < a then .ninf else .pinf
  | .pinf, .fin b => if b = 0 then .nan else if 0 < b then .pinf else .ninf
  | .ninf, .fin b => if b = 0 then .nan else if 0 < b then .ninf else .pinf
  | .pinf, .pinf => .pinf
  | .pinf, .ninf => .ninf
  | .ninf, .pinf => .ninf
  | .ninf, .ninf => .pinf

/-- IEEE-754 division: NaN is absorbing, `∞/∞` and `0/0` are NaN, a nonzero
finite over zero is a signed infinity, finite over infinity is zero.  The
rational `0` stands for `+0.0`: every zero divisor reachable below is a sum
of non-negative `f64` terms (a true-range window sum, a DI sum, a window
length), which is `+0.0`, and no quotient is itself used as a divisor, so
negative zero never needs to be distinguished. -/
def fqDiv : FQ → FQ → FQ
  | .nan, _ => .nan
  | _, .nan => .nan
  | .pinf, .pinf => .nan
  | .pinf, .ninf => .nan
  | .ninf, .pinf => .nan
  | .ninf, .ninf => .nan
  | .fin _, .pinf => .fin 0
  | .fin _, .ninf => .fin 0
  | .pinf, .fin b => if 0 ≤ b then .pinf else .ninf
  | .ninf, .fin b => if 0 ≤ b then .ninf else .pinf
  | .fin a, .fin b =>
    if b = 0 then (if a = 0 then .nan else if 0 < a then .pinf else .ninf)
    else .fin (a / b)

/-- `iter().sum::<f64>()`: fold of `fqAdd` from `+0.0`. -/
def fqSum (l : List FQ) : FQ := l.foldl fqAdd (.fin 0)

/-- `f64::is_nan`. -/
def fqIsNan : FQ → Bool
  | .nan => true
  | _ => false

/-- The comparator of `single::median`,
`a.partial_cmp(b).unwrap_or(Ordering::Equal)`, as a "not greater" test for
insertion sorting.  On the non-NaN values that reach the sort it is the total
order with `-∞ < finite < +∞`; a NaN operand makes `partial_cmp` `None`,
which `unwrap_or(Equal)` treats as a tie (unreachable below, NaNs having been
filtered out). -/
def fqLeb : FQ → FQ → Bool
  | .nan, _ => true
  | _, .nan => true
  | .ninf, _ => true
  | _, .ninf => false
  | _, .pinf => true
  | .pinf, _ => false
  | .fin a, .fin b => a ≤ b

/-- The `f64` mean of a window, `fqSum w / w.len()`. -/
def fqMean (w : List FQ) : FQ := fqDiv (fqSum w) (.fin w.length)

/-- Per-element effectful map, mirroring a Rust `for` loop that pushes one
result per iteration and propagates the first failure. -/
def mapE {b : Type} (f : ℕ → Except RtErr b) : List ℕ → Except RtErr (List b)
  | [] => .ok []
  | a :: l =>
    match f a with
    | .error e => .error e
    | .ok y =>
      match mapE f l with
      | .error e => .error e
      | .ok ys => .ok (y :: ys)

/-- Checked subtraction: debug-mode Rust `usize` subtraction. -/
def subP (a b : ℕ) : Except RtErr ℕ :=
  if b ≤ a then .ok (a - b) else .error (.panik "subtract with overflow")

/-- Checked indexing: Rust `v[i]`, panicking out of bounds; the `junk`
default is never produced in bounds. -/
def getP {α : Type} (junk : α) (l : List α) (i : ℕ) : Except RtErr α :=
  if i < l.length then .ok (l.getD i junk) else .error (.panik "index out of bounds")

/-- Stable insertion of `x` into a list sorted by `fqLeb` (helper for
`singleMedian`). -/
def insertSorted (x : FQ) : List FQ → List FQ
  | [] => [x]
  | y :: ys => if fqLeb x y then x :: y :: ys else y :: insertSorted x ys

/-- Insertion sort by `fqLeb` (helper for `singleMedian`).  The source's
`sort_by(partial_cmp ... unwrap_or(Equal))` is a stable sort; on NaN-free
values `fqLeb` is a total preorder, and any sort producing the nondecreasing
rearrangement yields the same list, ties being equal values. -/
def sortQ : List FQ → List FQ
  | [] => []
  | x :: xs => insertSorted x (sortQ xs)

/-- Mirror of `basic_indicators::single::median`: the `assert_non_empty`
result is computed and discarded (as in the source); NaN values are filtered
out, the rest sorted, and the middle value taken (mean of the two middle
values for even length).  When every value is NaN — reachable from the DX
series on flat data — the filtered vector is empty, its length `0` is even,
and `values[mid - 1]` is a debug-mode `0 - 1` underflow panic. -/
def singleMedian (prices : List FQ) : Except RtErr FQ :=
  let _ := assert_non_empty "prices" prices
  let values := sortQ (prices.filter fun f => !fqIsNan f)
  let mid := values.length / 2
  if values.length % 2 = 0 then
    match subP mid 1 with
    | .error e => .error e
    | .ok m1 => .ok (fqDiv (fqAdd (values.getD m1 .nan) (values.getD mid .nan)) (.fin 2))
  else .ok (values.getD mid .nan)

/-- `f64::round`: round half away from zero. -/
def roundAway (q : ℚ) : ℤ :=
  if 0 ≤ q then ⌊q + 1 / 2⌋ else -⌊-q + 1 / 2⌋

/-- `price.round() as i64` as used by `single::mode`: the `as` cast saturates
at the `i64` range and maps NaN to `0`. -/
def roundF : FQ → ℤ
  | .fin q =>
    if roundAway q < -(2 ^ 63) then -(2 ^ 63)
    else if (2 ^ 63 - 1 : ℤ) < roundAway q then 2 ^ 63 - 1
    else roundAway q
  | .pinf => 2 ^ 63 - 1
  | .ninf => -(2 ^ 63)
  | .nan => 0

/-- Mirror of `basic_indicators::single::mode`: the `assert_non_empty` result
is discarded; prices are rounded to `i64` keys, all keys attaining the
maximal count are kept, and their mean is returned.  (The source iterates a
`HashMap`; its order affects neither the sum nor the count of the modes.  The
`i64` sum of the distinct mode keys is modelled as exact integer arithmetic:
the only caller below feeds DX values, whose keys lie in `[0, 100]`, far from
the `i64` bounds.  On the empty list the source panics on `max().unwrap()`;
the caller below passes nonempty windows, where the junk `0` fold base is
dominated by a real count.) -/
def singleMode (prices : List FQ) : FQ :=
  let _ := assert_non_empty "prices" prices
  let rounded := prices.map roundF
  let keys := rounded.dedup
  let maxCount := (keys.map fun k => rounded.count k).foldl max 0
  let modes := keys.filter fun k => rounded.count k == maxCount
  fqDiv (.fin ((modes.map fun z => (z : ℚ)).sum)) (.fin modes.length)

/-- Mirror of `MovingAverageType` from `types.rs`. -/
inductive MovingAverageType where
  | Simple
  | Smoothed
  | Exponential
  | Personalised (alpha_num : ℚ) (alpha_den : ℚ)
  deriving DecidableEq

/-- Mirror of `ConstantModelType` from `types.rs`. -/
inductive ConstantModelType where
  | SimpleMovingAverage
  | SmoothedMovingAverage
  | ExponentialMovingAverage
  | PersonalisedMovingAverage (alpha_num : ℚ) (alpha_den : ℚ)
  | SimpleMovingMedian
  | SimpleMovingMode
  deriving DecidableEq

/-- Modelled from the spec: `crate::moving_average::bulk::moving_average` is
not among the sources provided; the spec treats moving-average variants as
out-of-scope collaborators ("simple closed-form or windowed-reduction
functions", §1) consumed as "a pluggable moving-average ... smoothing
strategy" (§6), and §8 fixes the edge case "`period=0` to any bulk function
raises `InvalidPeriod`".  It is therefore modelled as a windowed reduction
producing one value per full `period`-sized window, with an `InvalidPeriod`
error for `period == 0` or `period > len`.  The spec deliberately gives no
weight formulas for the variants, so each window is reduced by its `f64`
mean; any positively-weighted window average agrees with the mean on what
the claims below use — lengths, error behaviour, and NaN handling (the
output is NaN exactly for a window containing NaN, and the reduction itself
never panics). -/
def moving_average (prices : List FQ) (mat : MovingAverageType) (period : ℕ) :
    Except RtErr (List FQ) :=
  if period = 0 ∨ period > prices.length then
    .error (.err (.InvalidPeriod period prices.length "invalid period"))
  else
    let _ := mat
    .ok ((List.range (prices.length + 1 - period)).map fun i =>
      fqMean (win prices period i))

/-- Mirror of `basic_indicators::bulk::median`: the `assert_period` result is
computed and discarded (as in the source); `windows(period)` panics for
`period == 0` and yields no windows for `period > len` (the `range` below is
then empty); each window's median can itself panic (all-NaN window), which
aborts the loop. -/
def bulkMedian (prices : List FQ) (period : ℕ) : Except RtErr (List FQ) :=
  let _ := assert_period period prices.length
  if period = 0 then .error (.panik "window size must be non-zero")
  else mapE (fun i => singleMedian (win prices period i))
    (List.range (prices.length + 1 - period))

/-- Mirror of `basic_indicators::bulk::mode` (see `bulkMedian`; `mode` never
panics on a nonempty window — NaN rounds to the key `0`). -/
def bulkMode (prices : List FQ) (period : ℕ) : Except RtErr (List FQ) :=
  let _ := assert_period period prices.length
  if period = 0 then .error (.panik "window size must be non-zero")
  else
    .ok ((List.range (prices.length + 1 - period)).map fun i =>
      singleMode (win prices period i))

/-- Modelled from the spec: `crate::other_indicators::bulk::true_range` is not
among the sources provided; the spec lists the true-range function as an
external collaborator (§4.6, §6).  One value per input bar: the largest of
the bar's range measures.  On the finite inputs below every true range is a
finite, non-negative rational (each is a maximum over absolute values). -/
def true_range (close high low : List ℚ) : List ℚ :=
  (List.range (min close.length (min high.length low.length))).map fun i =>
    max (high.getD i 0 - low.getD i 0)
      (max (|high.getD i 0 - close.getD i 0|) (|close.getD i 0 - low.getD i 0|))

/-- The `match constant_model_type` smoothing dispatch inside
`directional_movement_system`.  The source's trailing
`_ => panic!("Not a supported constant model type")` arm is unreachable: all
six variants of the enum are matched. -/
def smoothDx (cmt : ConstantModelType) (dx : List FQ) (period : ℕ) :
    Except RtErr (List FQ) :=
  match cmt with
  | .SimpleMovingAverage => moving_average dx .Simple period
  | .SmoothedMovingAverage => moving_average dx .Smoothed period
  | .ExponentialMovingAverage => moving_average dx .Exponential period
  | .PersonalisedMovingAverage an ad => moving_average dx (.Personalised an ad) period
  | .SimpleMovingMedian => bulkMedian dx period
  | .SimpleMovingMode => bulkMode dx period

/-- The `positive_dm`/`negative_dm` pairs of
`directional_movement_system` (one pair per bar `i` in `1..length`); finite
inputs give finite differences, so these stay in `ℚ`. -/
def dmsDm (high low : List ℚ) : List (ℚ × ℚ) :=
  (List.range (high.length - 1)).map fun j =>
    let i := j + 1
    let high_diff := high.getD i 0 - high.getD (i - 1) 0
    let low_diff := low.getD (i - 1) 0 - low.getD i 0
    if high_diff > 0 ∧ high_diff > low_diff then (high_diff, (0 : ℚ))
    else if low_diff > 0 ∧ low_diff > high_diff then ((0 : ℚ), low_diff)
    else ((0 : ℚ), (0 : ℚ))

/-- The `(positive_di, negative_di)` pairs of `directional_movement_system`
(one pair per `i` in `period..length`): rolling `period` sums of DM over the
rolling `period` sum of true range, times 100 — in `f64`: a zero true-range
sum makes the quotient NaN (zero DM sum) or `+∞` (positive DM sum). -/
def dmsDis (high low close : List ℚ) (period : ℕ) : List (FQ × FQ) :=
  let tr := true_range (close.drop 1) (high.drop 1) (low.drop 1)
  let positive_dm := (dmsDm high low).map Prod.fst
  let negative_dm := (dmsDm high low).map Prod.snd
  (List.range (high.length - period)).map fun j =>
    let i := j + period
    let tr_sum := (sliceQ tr (i - period) i).sum
    let positive_dm_sum := (sliceQ positive_dm (i - period) i).sum
    let negative_dm_sum := (sliceQ negative_dm (i - period) i).sum
    (fqMul (fqDiv (.fin positive_dm_sum) (.fin tr_sum)) (.fin 100),
      fqMul (fqDiv (.fin negative_dm_sum) (.fin tr_sum)) (.fin 100))

/-- The `dx` series of `directional_movement_system`:
`100·|+DI − −DI| / (+DI + −DI)` in `f64` arithmetic — NaN whenever the DI
pair involves NaN or infinity, or sums to zero. -/
def dmsDx (high low close : List ℚ) (period : ℕ) : List FQ :=
  (dmsDis high low close period).map fun pn =>
    fqMul (fqDiv (fqAbs (fqSub pn.1 pn.2)) (fqAdd pn.1 pn.2)) (.fin 100)

/-- Every `period`-window of `dx` (the windows the median smoothing visits)
contains a non-NaN value — the condition under which `single::median` never
panics on the DX series. -/
def noAllNanWindow (dx : List FQ) (period : ℕ) : Bool :=
  (List.range (dx.length + 1 - period)).all fun i =>
    (win dx period i).any fun v => !fqIsNan v

/-- The `adxr` loop of `directional_movement_system`
(`for i in period..=adx.len()`, averaging `adx[i-period]` and `adx[i-1]`);
the `i - 1` is a debug-mode `usize` subtraction. -/
def dmsAdxr (adx : List FQ) (period : ℕ) : Except RtErr (List FQ) :=
  mapE
    (fun j =>
      let i := j + period
      match subP i 1 with
      | .error e => .error e
      | .ok i1 =>
        match getP FQ.nan adx (i - period) with
        | .error e => .error e
        | .ok a =>
          match getP FQ.nan adx i1 with
          | .error e => .error e
          | .ok b => .ok (fqDiv (fqAdd a b) (.fin 2)))
    (List.range (adx.length + 1 - period))

/-- The final assembly loop of `directional_movement_system`, including its
debug-mode `usize` subtractions `i + 2·period − 2` and `i + period − 1`. -/
def dmsAssemble (positive_di negative_di adx adxr : List FQ) (period : ℕ) :
    Except RtErr (List (FQ × FQ × FQ × FQ)) :=
  mapE
    (fun i =>
      match subP (i + 2 * period) 2 with
      | .error e => .error e
      | .ok k =>
        match getP FQ.nan positive_di k with
        | .error e => .error e
        | .ok pdi =>
          match getP FQ.nan negative_di k with
          | .error e => .error e
          | .ok ndi =>
            match subP (i + period) 1 with
            | .error e => .error e
            | .ok j2 =>
              match getP FQ.nan adx j2 with
              | .error e => .error e
              | .ok a =>
                match getP FQ.nan adxr i with
                | .error e => .error e
                | .ok r => .ok (pdi, ndi, a, r))
    (List.range adxr.length)

/-- Mirror of `trend_indicators::bulk::directional_movement_system`.  The
local `positive_dm`/`negative_dm`, `positive_di`/`negative_di`, `dx`, `adxr`
vectors of the source are the named definitions `dmsDm`, `dmsDis`, `dmsDx`,
`dmsAdxr` above; the source's capacity expression
`Vec::with_capacity(adx.len() - period - 1)` is a pair of debug-mode `usize`
subtractions, modelled with `subP`. -/
def directional_movement_system (high low close : List ℚ) (period : ℕ)
    (constant_model_type : ConstantModelType) :
    Except RtErr (List (FQ × FQ × FQ × FQ)) :=
  if high.length ≠ low.length ∨ high.length ≠ close.length then
    .error (.panik "Length of high, low, and close need to be equal")
  else if high = [] then .error (.panik "Prices cannot be empty")
  else if 3 * period > high.length then
    .error (.panik "Length of prices must be greater")
  else
    match smoothDx constant_model_type (dmsDx high low close period) period with
    | .error e => .error e
    | .ok adx =>
      match subP adx.length period with
      | .error e => .error e
      | .ok c1 =>
        match subP c1 1 with
        | .error e => .error e
        | .ok _ =>
          match dmsAdxr adx period with
          | .error e => .error e
          | .ok adxr =>
            dmsAssemble ((dmsDis high low close period).map Prod.fst)
              ((dmsDis high low close period).map Prod.snd) adx adxr period

/-- A concrete instantiation of the abstract square-root parameter `sqrtf`,
used only in closed evaluations whose outcome is independent of the square
root (the runs either never reach an RMSE comparison, or decide every break
test through the Durbin–Watson clause; the accompanying comments justify this
case by case). -/
def sqId : ℚ → ℚ := fun q => q

/-- Negate the value component of an extremum record. -/
def negPair (p : ℚ × ℕ) : ℚ × ℕ := (-p.1, p.2)

/-- Negate the value components of a `peaks`/`valleys` scan state (the bridge
between the two mirror-image scans). -/
def negScan (st : ExtScan) : ExtScan :=
  ⟨st.out.map negPair, st.lastIdx, -st.lastVal⟩

/-- `i + ` the rightmost position of the maximum of the window starting at
`i` — the `idx` computed by the `peaks` loop body. -/
def winPeakIdx (prices : List ℚ) (period i : ℕ) : ℕ :=
  i + (rposAux (win prices period i) (singleMax (win prices period i))).getD 0

/-- `i + ` the rightmost position of the minimum of the window starting at
`i` — the `idx` computed by the `valleys` loop body. -/
def winValleyIdx (prices : List ℚ) (period i : ℕ) : ℕ :=
  i + (rposAux (win prices period i) (singleMin (win prices period i))).getD 0

/-- Invariant of the `peaks` scan, entering the iteration for window `i`:
output indices strictly increase; the last output index is at most
`last_peak_idx`; `last_peak_idx = 0` only in the sentinel situation (empty
output, or a single extremum at index 0); a nonzero `last_peak_idx` means
something was emitted, which only happens from iteration 1 on when the
output already starts at index 0; and `last_peak_idx` never exceeds the
current window's extremum index. -/
def PeakInv (prices : List ℚ) (period : ℕ) (st : ExtScan) (i : ℕ) : Prop :=
  List.Chain' (· < ·) (st.out.map Prod.snd) ∧
  (∀ pr ∈ st.out.getLast?, pr.2 ≤ st.lastIdx) ∧
  (st.lastIdx = 0 → st.out = [] ∨ ∃ v, st.out = [(v, 0)]) ∧
  (st.lastIdx ≠ 0 → st.out ≠ []) ∧
  (st.out ≠ [] → 1 ≤ i) ∧
  (i + period ≤ prices.length → st.lastIdx ≤ winPeakIdx prices period i)

/-- Invariant of the `valleys` scan, the mirror image of `PeakInv`. -/
def ValleyInv (prices : List ℚ) (period : ℕ) (st : ExtScan) (i : ℕ) : Prop :=
  List.Chain' (· < ·) (st.out.map Prod.snd) ∧
  (∀ pr ∈ st.out.getLast?, pr.2 ≤ st.lastIdx) ∧
  (st.lastIdx = 0 → st.out = [] ∨ ∃ v, st.out = [(v, 0)]) ∧
  (st.lastIdx ≠ 0 → st.out ≠ []) ∧
  (st.out ≠ [] → 1 ≤ i) ∧
  (i + period ≤ prices.length → st.lastIdx ≤ winValleyIdx prices period i)

/-- The sum of squared residuals accumulated by the `goodness_of_fit` fold
(first component of its accumulator), written pointwise. -/
def sumSqResiduals (pts : List (ℚ × ℕ)) (trend : ℚ × ℚ) : ℚ :=
  ((List.range pts.length).map fun i =>
    ((pts.map fun yx => yx.1).getD i 0 -
      (pts.map fun yx => trend.2 + trend.1 * (yx.2 : ℚ)).getD i 0) ^ 2).sum

/-- The total sum of squares around the mean accumulated by the
`goodness_of_fit` fold (second component of its accumulator), written
pointwise. -/
def totalSquares (pts : List (ℚ × ℕ)) : ℚ :=
  ((List.range pts.length).map fun i =>
    ((pts.map fun yx => yx.1).getD i 0 - singleMean (pts.map fun yx => yx.1)) ^ 2).sum

/-- Whether a `peaks`/`valleys` outcome is an `InvalidPeriod` error returned
to the caller. -/
def isInvalidPeriodError : Except RtErr (List (ℚ × ℕ)) → Bool
  | .error (.err (.InvalidPeriod _ _ _)) => true
  | _ => false

/-- The `break_down_trends` loop invariant used for the refit claim (with
`max_outliers = 0`): entering the iteration for `index`, the working window
holds exactly the points of the current segment `[startIdx, index-1]`, the
current `(slope, icept)` is the OLS fit of that window (or the initial
`(0, 0)` bootstrap, possible only while the segment is `[0, 1]`), and every
already-emitted segment either is the bootstrap segment `(0, 1, 0, 0)` or
stores exactly the OLS fit of its own points. -/
def BdtFitInv (prices : List ℚ) (st : BdtState) (index : ℕ) : Prop :=
  st.endIdx = index - 1 ∧
  st.startIdx ≤ index - 1 ∧
  st.points = segPoints prices st.startIdx (index - 1) ∧
  ((st.slope, st.icept) = get_trend_line st.points ∨
    (st.startIdx = 0 ∧ index - 1 = 1 ∧ st.slope = 0 ∧ st.icept = 0)) ∧
  (∀ s ∈ st.trends, s = (0, 1, 0, 0) ∨
    (s.2.2.1, s.2.2.2) = get_trend_line (segPoints prices s.1 s.2.1))

theorem ptpsStep_sars_length (highs lows : List ℚ) (a m s : ℚ) (st : PtpsState) (i : ℕ) :
    (ptpsStep highs lows a m s st i).sars.length = st.sars.length + 1 := by
  simp only [ptpsStep]
  by_cases h1 : st.pos = Position.Short ∧ highs.getD i 0 > st.sars.getD (i - 1) 0
  · rw [if_pos h1]; simp
  · rw [if_neg h1]
    by_cases h2 : st.pos = Position.Short
    · rw [if_pos h2]; simp
    · rw [if_neg h2]
      by_cases h3 : st.pos = Position.Long ∧ lows.getD i 0 < st.sars.getD (i - 1) 0
      · rw [if_pos h3]; simp
      · rw [if_neg h3]; simp

theorem ptpsGo_sars_length (highs lows : List ℚ) (a m s : ℚ) :
    ∀ (steps i : ℕ) (st : PtpsState),
      (ptpsGo highs lows a m s i steps st).sars.length = st.sars.length + steps := by
  intro steps
  induction steps with
  | zero => intro i st; rfl
  | succ k ih =>
    intro i st
    show (ptpsGo highs lows a m s (i + 1) k _).sars.length = _
    rw [ih]
    rw [ptpsStep_sars_length]
    omega

/-- C10: on non-empty, equal-length highs/lows, the bulk Parabolic SAR scan
returns exactly one SAR value per input bar, for any acceleration-factor
parameters, start position and previous SAR. -/
theorem parabolic_time_price_system_length (highs lows : List ℚ) (a m s : ℚ)
    (pos : Position) (psar : ℚ) (h1 : highs ≠ []) (h2 : lows ≠ [])
    (hlen : highs.length = lows.length) :
    ∃ sars, parabolic_time_price_system highs lows a m s pos psar = .ok sars ∧
      sars.length = highs.length := by
  have hlp : 0 < highs.length := List.length_pos.mpr h1
  simp only [parabolic_time_price_system]
  rw [if_neg (by simp [h1, h2]), if_neg (by simp [hlen])]
  refine ⟨_, rfl, ?_⟩
  rw [ptpsGo_sars_length]
  simp only [List.length_singleton]
  omega

theorem parabolic_time_price_system_length_witness :
    (([(1 : ℚ)] : List ℚ) ≠ [] ∧ ([(2 : ℚ)] : List ℚ) ≠ [] ∧
      ([(1 : ℚ)] : List ℚ).length = ([(2 : ℚ)] : List ℚ).length) ∧
    ∃ sars, parabolic_time_price_system [(1 : ℚ)] [(2 : ℚ)] 0 0 0 .Long 0 = .ok sars ∧
      sars.length = ([(1 : ℚ)] : List ℚ).length :=
  ⟨⟨by decide, by decide, by decide⟩,
    parabolic_time_price_system_length [(1 : ℚ)] [(2 : ℚ)] 0 0 0 .Long 0
      (by decide) (by decide) (by decide)⟩

/-- C5 (amended): in the bulk Parabolic SAR scan, when the position is Short
and the current high exceeds the previous SAR, the step flips to Long, resets
the acceleration factor to its start value, restarts the position at the
current bar, and emits the SAR computed from the pivot (the minimum low from
the flip-start bar up to, but excluding, the current bar) with extreme point
equal to the *current bar's high* (not the maximum high since the last
flip). -/
theorem parabolic_short_flip_step (highs lows : List ℚ) (afStart afMax afStep : ℚ)
    (st : PtpsState) (i : ℕ) (hps : st.posStart < i) (hpos : st.pos = .Short)
    (hflip : st.sars.getD (i - 1) 0 < highs.getD i 0) :
    ptpsStep highs lows afStart afMax afStep st i =
      { af := afStart, pos := .Long, posStart := i,
        sars := st.sars ++ [long_parabolic_time_price_system
          (singleMin (sliceQ lows st.posStart i)) (highs.getD i 0) afStart
          (singleMin (sliceQ lows (i - 1) (i + 1)))] } := by
  have := hps
  simp only [ptpsStep]
  rw [if_pos ⟨hpos, hflip⟩]

theorem parabolic_short_flip_step_witness :
    ((⟨9/10, .Short, 0, [100, 100, 11]⟩ : PtpsState).posStart < 3 ∧
      (⟨9/10, .Short, 0, [100, 100, 11]⟩ : PtpsState).pos = .Short ∧
      ((⟨9/10, .Short, 0, [100, 100, 11]⟩ : PtpsState) : PtpsState).sars.getD 2 0 <
        ([100, 10, 11, 12] : List ℚ).getD 3 0) ∧
    ptpsStep [100, 10, 11, 12] [5, 1, 50, 60] (9/10) (1 - 1/10000000) 0
      ⟨9/10, .Short, 0, [100, 100, 11]⟩ 3 =
      ⟨9/10, .Long, 3, [100, 100, 11, 109/10]⟩ :=
  ⟨⟨by norm_num, by norm_num, by norm_num [List.getD]⟩,
    (parabolic_short_flip_step [100, 10, 11, 12] [5, 1, 50, 60] (9/10)
      (1 - 1/10000000) 0 ⟨9/10, .Short, 0, [100, 100, 11]⟩ 3
      (by norm_num) (by norm_num) (by norm_num [List.getD])).trans
      (by norm_num [sliceQ, singleMin, long_parabolic_time_price_system, List.getD])⟩

/-- C5 counterexample to the claim as stated: running the bulk scan on
`highs = [100, 10, 11, 12]`, `lows = [5, 1, 50, 60]` (start Short, af start
`0.9`, step `0`), bar 3 flips Short→Long and the engine emits SAR `10.9`,
computed with extreme point = the current high `12`; the maximum high
observed since the last flip is `100` (with or without the current bar), and
using it as the extreme point, as the claim states, would give SAR `50`. -/
theorem parabolic_short_flip_counterexample :
    parabolic_time_price_system [100, 10, 11, 12] [5, 1, 50, 60] (9/10) 1 0 .Short 0 =
      .ok [100, 100, 11, 109/10] ∧
    singleMax (sliceQ [100, 10, 11, 12] 0 3) = 100 ∧
    singleMax (sliceQ [100, 10, 11, 12] 0 4) = 100 ∧
    long_parabolic_time_price_system (singleMin (sliceQ [5, 1, 50, 60] 0 3)) 100 (9/10)
      (singleMin (sliceQ [5, 1, 50, 60] 2 4)) = 50 ∧
    ((109 : ℚ)/10 ≠ 50) := by
  norm_num [parabolic_time_price_system, ptpsGo, ptpsStep, sliceQ, singleMin, singleMax,
    long_parabolic_time_price_system, short_parabolic_time_price_system]
  rintro (h | h) <;> simp at h

/-- C8: on a price series of length 1 or 2, `break_down_trends` returns the
single segment `(0, 1, 0.0, 0.0)` for every configuration and every price
value (the OLS fitter is never invoked: the fitting branch requires
`index > end_index`, which never holds before index 2). -/
theorem break_down_trends_short_series (sqrtf : ℚ → ℚ) (cfg : TrendBreakConfig) (p0 p1 : ℚ) :
    break_down_trends sqrtf [p0] cfg = .ok [(0, 1, 0, 0)] ∧
    break_down_trends sqrtf [p0, p1] cfg = .ok [(0, 1, 0, 0)] :=
  ⟨rfl, rfl⟩

/-- C2 (amended): calling `peaks` or `valleys` with `period == 0` or
`period > len(prices)` never returns normally, but the failure is a panic,
not an `InvalidPeriod` error: the `Result` of `assert_period` is discarded by
both functions, after which `period > len` underflows the loop bound
(debug-mode panic) and `period == 0` panics unwrapping `rposition` on an
empty window. -/
theorem peaks_valleys_invalid_period_panics (prices : List ℚ) (period closest : ℕ)
    (h : period = 0 ∨ prices.length < period) :
    peaks prices period closest =
      .error (.panik (if period = 0 then "unwrap on None" else "subtract with overflow")) ∧
    valleys prices period closest =
      .error (.panik (if period = 0 then "unwrap on None" else "subtract with overflow")) := by
  rcases h with h | h
  · subst h
    rw [if_pos rfl]
    constructor
    · simp [peaks, peaksGo, peakStep, win, rposAux]
    · simp [valleys, valleysGo, valleyStep, win, rposAux]
  · rw [if_neg (by omega)]
    constructor
    · simp [peaks, h]
    · simp [valleys, h]

theorem peaks_valleys_invalid_period_panics_witness :
    ((2 : ℕ) = 0 ∨ ([(1 : ℚ)] : List ℚ).length < 2) ∧
    (peaks [(1 : ℚ)] 2 1 =
      .error (.panik (if (2 : ℕ) = 0 then "unwrap on None" else "subtract with overflow")) ∧
    valleys [(1 : ℚ)] 2 1 =
      .error (.panik (if (2 : ℕ) = 0 then "unwrap on None" else "subtract with overflow"))) :=
  ⟨by decide, peaks_valleys_invalid_period_panics [(1 : ℚ)] 2 1 (by decide)⟩

/-- C2 counterexample to the claim as stated: at `prices = [1]`, `period = 0`
the call does not report an `InvalidPeriod` error (the `assert_period` result
is discarded); it panics unwrapping the `rposition` of an empty window. -/
theorem peaks_invalid_period_counterexample :
    peaks [(1 : ℚ)] 0 1 = .error (.panik "unwrap on None") ∧
    isInvalidPeriodError (peaks [(1 : ℚ)] 0 1) = false := by
  constructor
  · simp [peaks, peaksGo, peakStep, win, rposAux]
  · simp [isInvalidPeriodError, peaks, peaksGo, peakStep, win, rposAux]

theorem foldl_pair_add (f g : ℕ → ℚ) : ∀ (l : List ℕ) (init : ℚ × ℚ),
    l.foldl (fun a i => (a.1 + f i, a.2 + g i)) init =
      (init.1 + (l.map f).sum, init.2 + (l.map g).sum)
  | [], init => by simp
  | x :: l, init => by
    rw [List.foldl_cons, foldl_pair_add f g l]
    simp [add_assoc]

theorem sumSqResiduals_nonneg (pts : List (ℚ × ℕ)) (trend : ℚ × ℚ) :
    0 ≤ sumSqResiduals pts trend := by
  apply List.sum_nonneg
  intro x hx
  obtain ⟨i, -, rfl⟩ := List.mem_map.mp hx
  positivity

theorem goodness_of_fit_fst_eq (sqrtf : ℚ → ℚ) (pts : List (ℚ × ℕ)) (trend : ℚ × ℚ)
    (hn : 3 ≤ pts.length) :
    (goodness_of_fit sqrtf pts trend).1 =
      1 - (1 - (if totalSquares pts > 1 / 10 ^ 10 then
          max (1 - sumSqResiduals pts trend / totalSquares pts) 0 else 0)) *
        ((pts.length : ℚ) - 1) / max ((pts.length : ℚ) - 2) 1 := by
  simp only [goodness_of_fit]
  rw [if_neg (by omega)]
  rw [foldl_pair_add
    (fun i => ((pts.map fun yx => yx.1).getD i 0 -
      (pts.map fun yx => trend.2 + trend.1 * (yx.2 : ℚ)).getD i 0) ^ 2)
    (fun i => ((pts.map fun yx => yx.1).getD i 0 -
      singleMean (pts.map fun yx => yx.1)) ^ 2)
    (List.range pts.length) (0, 0)]
  simp only [zero_add]
  rw [if_pos (by omega : pts.length > 2)]
  rw [show ((List.range pts.length).map fun i =>
      ((pts.map fun yx => yx.1).getD i 0 -
        (pts.map fun yx => trend.2 + trend.1 * (yx.2 : ℚ)).getD i 0) ^ 2).sum =
      sumSqResiduals pts trend from rfl]
  rw [show ((List.range pts.length).map fun i =>
      ((pts.map fun yx => yx.1).getD i 0 -
        singleMean (pts.map fun yx => yx.1)) ^ 2).sum = totalSquares pts from rfl]

/-- C6 (amended): for at least 3 points whose total sum of squares exceeds the
code's `1e-10` positivity guard, the adjusted R² is at most 1 and at least
`-1/(n-2)` (so it is *not* confined to `[0,1]`: the raw R² is clamped at 0,
which makes the adjusted value `-1/(n-2)` for a worthless fit), and it equals
exactly 1 when the residuals are exactly zero. -/
theorem goodness_of_fit_adjusted_r_squared (sqrtf : ℚ → ℚ) (pts : List (ℚ × ℕ))
    (trend : ℚ × ℚ) (hn : 3 ≤ pts.length) (htss : 1 / 10 ^ 10 < totalSquares pts) :
    (goodness_of_fit sqrtf pts trend).1 ≤ 1 ∧
    -(1 / ((pts.length : ℚ) - 2)) ≤ (goodness_of_fit sqrtf pts trend).1 ∧
    (sumSqResiduals pts trend = 0 → (goodness_of_fit sqrtf pts trend).1 = 1) := by
  have hq3 : (3 : ℚ) ≤ (pts.length : ℚ) := by exact_mod_cast hn
  have hden : (0 : ℚ) < (pts.length : ℚ) - 2 := by linarith
  have hnum : (0 : ℚ) ≤ (pts.length : ℚ) - 1 := by linarith
  have htss0 : 0 < totalSquares pts := lt_trans (by positivity) htss
  have hE := goodness_of_fit_fst_eq sqrtf pts trend hn
  rw [if_pos htss, max_eq_left (by linarith : (1 : ℚ) ≤ (pts.length : ℚ) - 2)] at hE
  set r2 := max (1 - sumSqResiduals pts trend / totalSquares pts) 0 with hr2
  have h0r : 0 ≤ r2 := le_max_right _ _
  have hr1 : r2 ≤ 1 := by
    apply max_le _ (by norm_num)
    have : 0 ≤ sumSqResiduals pts trend / totalSquares pts :=
      div_nonneg (sumSqResiduals_nonneg pts trend) htss0.le
    linarith
  refine ⟨?_, ?_, ?_⟩
  · rw [hE]
    have : 0 ≤ (1 - r2) * ((pts.length : ℚ) - 1) / ((pts.length : ℚ) - 2) := by
      apply div_nonneg _ hden.le
      exact mul_nonneg (by linarith) hnum
    linarith
  · rw [hE]
    have hle : (1 - r2) * ((pts.length : ℚ) - 1) ≤ (pts.length : ℚ) - 1 := by nlinarith
    have hle2 := (div_le_div_iff_of_pos_right hden).mpr hle
    have hiden : 1 - ((pts.length : ℚ) - 1) / ((pts.length : ℚ) - 2) =
        -(1 / ((pts.length : ℚ) - 2)) := by
      field_simp
      norm_num
    linarith
  · intro hz
    have hone : r2 = 1 := by rw [hr2, hz]; norm_num
    rw [hE, hone]
    ring

theorem goodness_of_fit_adjusted_r_squared_witness :
    (3 ≤ ([((0 : ℚ), (0 : ℕ)), (1, 1), (0, 2)] : List (ℚ × ℕ)).length ∧
      1 / 10 ^ 10 < totalSquares [((0 : ℚ), (0 : ℕ)), (1, 1), (0, 2)]) ∧
    ((goodness_of_fit sqId [((0 : ℚ), (0 : ℕ)), (1, 1), (0, 2)] (0, 1/3)).1 ≤ 1 ∧
      -(1 / ((([((0 : ℚ), (0 : ℕ)), (1, 1), (0, 2)] : List (ℚ × ℕ)).length : ℚ) - 2)) ≤
        (goodness_of_fit sqId [((0 : ℚ), (0 : ℕ)), (1, 1), (0, 2)] (0, 1/3)).1 ∧
      (sumSqResiduals [((0 : ℚ), (0 : ℕ)), (1, 1), (0, 2)] (0, 1/3) = 0 →
        (goodness_of_fit sqId [((0 : ℚ), (0 : ℕ)), (1, 1), (0, 2)] (0, 1/3)).1 = 1)) :=
  ⟨⟨by norm_num, by norm_num [totalSquares, singleMean, List.getD, show List.range 3 = [0, 1, 2] from rfl]⟩,
    goodness_of_fit_adjusted_r_squared sqId [((0 : ℚ), (0 : ℕ)), (1, 1), (0, 2)] (0, 1/3)
      (by norm_num) (by norm_num [totalSquares, singleMean, List.getD, show List.range 3 = [0, 1, 2] from rfl])⟩

/-- C6 counterexample to the claim as stated: for the 3 points
`(0,0), (1,1), (0,2)` (OLS fit `y = 1/3`, total squares `2/3 > 1e-10`) the
adjusted R² returned is `-1`, outside `[0,1]`: the raw R² clamps to 0 and the
small-sample penalty `(n-1)/dof = 2` drives the adjusted value negative. -/
theorem goodness_of_fit_adjusted_r_squared_counterexample :
    1 / 10 ^ 10 < totalSquares [((0 : ℚ), (0 : ℕ)), (1, 1), (0, 2)] ∧
    get_trend_line [((0 : ℚ), (0 : ℕ)), (1, 1), (0, 2)] = (0, 1/3) ∧
    (goodness_of_fit sqId [((0 : ℚ), (0 : ℕ)), (1, 1), (0, 2)] (0, 1/3)).1 = -1 ∧
    ¬(0 ≤ (-1 : ℚ)) := by
  refine ⟨by norm_num [totalSquares, singleMean, List.getD, show List.range 3 = [0, 1, 2] from rfl], ?_, ?_, by norm_num⟩
  · norm_num [get_trend_line, List.foldl]
  · norm_num [goodness_of_fit, singleMean, sqId, List.getD, List.foldl,
      show List.range 3 = [0, 1, 2] from rfl, show List.range 2 = [0, 1] from rfl]

theorem segChain_append (a c e : ℕ) (m b : ℚ) :
    ∀ (l : List (ℕ × ℕ × ℚ × ℚ)), SegChain a l c → SegChain a (l ++ [(c, e, m, b)]) e
  | [], h => ⟨h.symm, rfl⟩
  | s :: t, h => ⟨h.1, segChain_append _ _ _ _ _ t h.2⟩

theorem bdtStep_chain (sqrtf : ℚ → ℚ) (cfg : TrendBreakConfig) (prices : List ℚ)
    (st : BdtState) (index : ℕ) (price : ℚ)
    (h : SegChain 0 st.trends st.startIdx) :
    SegChain 0 (bdtStep sqrtf cfg prices st index price).trends
      (bdtStep sqrtf cfg prices st index price).startIdx := by
  simp only [bdtStep]
  by_cases h0 : index = 0
  · rw [if_pos h0]; exact h
  · rw [if_neg h0]
    by_cases hgt : index > st.endIdx
    · rw [if_pos hgt]
      split_ifs <;>
        first
          | exact h
          | exact segChain_append 0 st.startIdx st.endIdx st.slope st.icept st.trends h
    · rw [if_neg hgt]; exact h

theorem bdtGo_chain (sqrtf : ℚ → ℚ) (cfg : TrendBreakConfig) (prices : List ℚ) :
    ∀ (rest : List ℚ) (index : ℕ) (st : BdtState),
      SegChain 0 st.trends st.startIdx →
      SegChain 0 (bdtGo sqrtf cfg prices index rest st).trends
        (bdtGo sqrtf cfg prices index rest st).startIdx
  | [], _, _, h => h
  | _ :: r, index, st, h =>
    bdtGo_chain sqrtf cfg prices r (index + 1) _
      (bdtStep_chain sqrtf cfg prices st index _ h)

theorem bdtStep_endIdx_zero (sqrtf : ℚ → ℚ) (cfg : TrendBreakConfig) (prices : List ℚ)
    (st : BdtState) (index : ℕ) (price : ℚ) (hmo : cfg.max_outliers = 0)
    (hi : 1 ≤ index) :
    (bdtStep sqrtf cfg prices st index price).endIdx = index := by
  simp only [bdtStep]
  rw [if_neg (by omega)]
  by_cases hgt : index > st.endIdx
  · rw [if_pos hgt]
    split_ifs
    all_goals first | rfl | (exfalso; omega)
  · rw [if_neg hgt]

theorem bdtGo_endIdx_zero (sqrtf : ℚ → ℚ) (cfg : TrendBreakConfig) (prices : List ℚ)
    (hmo : cfg.max_outliers = 0) :
    ∀ (rest : List ℚ) (index : ℕ) (st : BdtState), 1 ≤ index →
      (bdtGo sqrtf cfg prices index rest st).endIdx =
        if rest = [] then st.endIdx else index + rest.length - 1
  | [], _, _, _ => by simp [bdtGo]
  | q :: r, index, st, hi => by
    show (bdtGo sqrtf cfg prices (index + 1) r _).endIdx = _
    rw [bdtGo_endIdx_zero sqrtf cfg prices hmo r (index + 1) _ (by omega)]
    rw [if_neg (List.cons_ne_nil q r)]
    split_ifs with h1
    · rw [bdtStep_endIdx_zero sqrtf cfg prices st index q hmo hi]
      subst h1
      simp
    · simp only [List.length_cons]
      omega

/-- C1 (amended): for every non-empty series and configuration, the segments
emitted by `break_down_trends` are contiguous — the list is non-empty, the
first segment starts at index 0 and the end index of each segment equals the
start index of the next (`SegChain 0 segs e`, where `e` is the last segment's
end index).  The last end index equals `len - 1` under the additional
conditions `len ≥ 2` and no outlier skipping (`max_outliers = 0`); a series
of length 1 yields the single segment `(0, 1, 0.0, 0.0)` whose end index `1`
is out of range, and a series whose final points are absorbed as outliers
ends its last segment at the last accepted index instead. -/
theorem break_down_trends_segments_contiguous (sqrtf : ℚ → ℚ) (prices : List ℚ)
    (cfg : TrendBreakConfig) (segs : List (ℕ × ℕ × ℚ × ℚ)) (hne : prices ≠ [])
    (hr : break_down_trends sqrtf prices cfg = .ok segs) :
    segs ≠ [] ∧ ∃ e, SegChain 0 segs e ∧
      (cfg.max_outliers = 0 → 2 ≤ prices.length → e = prices.length - 1) := by
  obtain ⟨p, rest, rfl⟩ : ∃ p rest, prices = p :: rest := by
    cases prices with
    | nil => exact absurd rfl hne
    | cons p rest => exact ⟨p, rest, rfl⟩
  simp only [break_down_trends, List.cons_ne_nil, if_false, Except.ok.injEq] at hr
  subst hr
  refine ⟨by simp, _,
    segChain_append 0 _ _ _ _ _
      (bdtGo_chain sqrtf cfg (p :: rest) (p :: rest) 0 ⟨[], [], 0, 0, 0, 1, [], f64MAX⟩ rfl),
    ?_⟩
  intro hmo hlen
  have h1 : bdtGo sqrtf cfg (p :: rest) 0 (p :: rest) ⟨[], [], 0, 0, 0, 1, [], f64MAX⟩ =
      bdtGo sqrtf cfg (p :: rest) 1 rest
        (bdtStep sqrtf cfg (p :: rest) ⟨[], [], 0, 0, 0, 1, [], f64MAX⟩ 0 p) := rfl
  rw [h1, bdtGo_endIdx_zero sqrtf cfg (p :: rest) hmo rest 1 _ le_rfl]
  have hrne : rest ≠ [] := by
    intro h
    subst h
    simp at hlen
  rw [if_neg hrne]
  simp only [List.length_cons]
  omega

/-- C1 counterexample to the claim as stated, in two parts.  (i) On the
one-element series `[42]` the single emitted segment is `(0, 1, 0.0, 0.0)`:
its end index 1 is not `len - 1 = 0`.  (ii) On `[1, 2, 3, 4, 5]` with
`max_outliers = 1` and a hard Durbin–Watson band `[1000, 2000]` that every
point violates, the final point (index 4) is absorbed as an outlier, so the
last emitted segment ends at index 3, not `len - 1 = 4`.  (The durbin-watson
clause decides every break test, so the run does not depend on the square
root stub `sqId`.) -/
theorem break_down_trends_last_end_counterexample :
    break_down_trends sqId [(42 : ℚ)] ⟨1, 0, 0, 1, 1, 0, 4, 1000, 2000⟩ = .ok [(0, 1, 0, 0)] ∧
    (1 : ℕ) ≠ ([(42 : ℚ)] : List ℚ).length - 1 ∧
    break_down_trends sqId [(1 : ℚ), 2, 3, 4, 5] ⟨1, 0, 0, 1, 1, 0, 4, 1000, 2000⟩ =
      .ok [(0, 1, 0, 0), (1, 3, 1, 1)] ∧
    (3 : ℕ) ≠ ([(1 : ℚ), 2, 3, 4, 5] : List ℚ).length - 1 := by
  refine ⟨rfl, by decide, ?_, by decide⟩
  norm_num [break_down_trends, bdtGo, bdtStep, goodness_of_fit, get_trend_line,
    singleMean, segPoints, f64MAX, sqId, List.getD, List.foldl,
    show List.range 2 = [0, 1] from rfl, show List.range 3 = [0, 1, 2] from rfl,
    show List.range 4 = [0, 1, 2, 3] from rfl, show List.range 5 = [0, 1, 2, 3, 4] from rfl,
    show List.range' 1 3 = [1, 2, 3] from rfl]
  intro h
  simp at h

theorem break_down_trends_segments_contiguous_witness :
    (([(1 : ℚ), 2, 3] : List ℚ) ≠ [] ∧
      break_down_trends sqId [(1 : ℚ), 2, 3] ⟨0, 0, 0, 1, 1, 0, 4, 0, 4⟩ =
        .ok [(0, 2, 1, 1)]) ∧
    ([((0 : ℕ), (2 : ℕ), (1 : ℚ), (1 : ℚ))] ≠ [] ∧
      ∃ e, SegChain 0 [((0 : ℕ), (2 : ℕ), (1 : ℚ), (1 : ℚ))] e ∧
        ((⟨0, 0, 0, 1, 1, 0, 4, 0, 4⟩ : TrendBreakConfig).max_outliers = 0 →
          2 ≤ ([(1 : ℚ), 2, 3] : List ℚ).length →
          e = ([(1 : ℚ), 2, 3] : List ℚ).length - 1)) :=
  ⟨⟨by simp, by
      norm_num [break_down_trends, bdtGo, bdtStep, goodness_of_fit, get_trend_line,
        singleMean, segPoints, f64MAX, sqId, List.getD, List.foldl,
        show List.range 2 = [0, 1] from rfl, show List.range 3 = [0, 1, 2] from rfl]
      intro h
      simp at h⟩,
    break_down_trends_segments_contiguous sqId [(1 : ℚ), 2, 3] ⟨0, 0, 0, 1, 1, 0, 4, 0, 4⟩
      [((0 : ℕ), (2 : ℕ), (1 : ℚ), (1 : ℚ))] (by simp)
      (by
        norm_num [break_down_trends, bdtGo, bdtStep, goodness_of_fit, get_trend_line,
          singleMean, segPoints, f64MAX, sqId, List.getD, List.foldl,
          show List.range 2 = [0, 1] from rfl, show List.range 3 = [0, 1, 2] from rfl]
        intro h
        simp at h)⟩

theorem segPoints_snoc (prices : List ℚ) (s e : ℕ) (hse : s ≤ e + 1) :
    segPoints prices s (e + 1) =
      segPoints prices s e ++ [(prices.getD (e + 1) 0, e + 1)] := by
  unfold segPoints
  rw [show e + 1 + 1 - s = (e + 1 - s) + 1 by omega, List.range'_concat,
    show s + 1 * (e + 1 - s) = e + 1 by omega, List.map_append]
  simp

theorem bdtStep_fit_inv (sqrtf : ℚ → ℚ) (cfg : TrendBreakConfig) (prices : List ℚ)
    (st : BdtState) (index : ℕ) (hmo : cfg.max_outliers = 0) (hi : 2 ≤ index)
    (hinv : BdtFitInv prices st index) :
    BdtFitInv prices (bdtStep sqrtf cfg prices st index (prices.getD index 0))
      (index + 1) := by
  obtain ⟨hend, hstart, hpts, hcur, htr⟩ := hinv
  have hgt : index > st.endIdx := by omega
  have hpts2 : st.points ++ [(prices.getD index 0, index)] =
      segPoints prices st.startIdx index := by
    have h := segPoints_snoc prices st.startIdx (index - 1) (by omega)
    rw [show index - 1 + 1 = index by omega] at h
    rw [hpts]
    exact h.symm
  have hforced : ∀ pr : ℚ, BdtFitInv prices
      ({ outliers := [],
         trends := st.trends ++ [(st.startIdx, st.endIdx, st.slope, st.icept)],
         slope := (get_trend_line (segPoints prices st.endIdx index)).1,
         icept := (get_trend_line (segPoints prices st.endIdx index)).2,
         startIdx := st.endIdx, endIdx := index,
         points := segPoints prices st.endIdx index, prevRmse := pr } : BdtState)
      (index + 1) := by
    intro pr
    refine ⟨by dsimp only; omega, by dsimp only; omega,
      by dsimp only; rw [show index + 1 - 1 = index by omega], ?_, ?_⟩
    · exact Or.inl rfl
    · intro s hs
      rcases List.mem_append.mp hs with hs | hs
      · exact htr s hs
      · have hseq : s = (st.startIdx, st.endIdx, st.slope, st.icept) := by
          simpa using hs
        subst hseq
        rcases hcur with hfit | ⟨h0, h1, hs0, hi0⟩
        · right
          dsimp only
          rw [hend, ← hpts]
          exact hfit
        · left
          rw [h0, hend, h1, hs0, hi0]
  simp only [bdtStep]
  rw [if_neg (by omega : ¬ index = 0), if_pos hgt]
  split_ifs with hbr houtl hlen2
  · exact absurd houtl (by omega)
  · exact hforced _
  · exact hforced _
  · refine ⟨by dsimp only; omega, by dsimp only; omega, ?_, Or.inl rfl, htr⟩
    dsimp only
    rw [show index + 1 - 1 = index by omega]
    exact hpts2

theorem bdtGo_fit_inv (sqrtf : ℚ → ℚ) (cfg : TrendBreakConfig) (prices : List ℚ)
    (hmo : cfg.max_outliers = 0) :
    ∀ (rest : List ℚ) (index : ℕ) (st : BdtState), rest = prices.drop index →
      2 ≤ index → BdtFitInv prices st index →
      BdtFitInv prices (bdtGo sqrtf cfg prices index rest st) (index + rest.length)
  | [], index, st, hdrop, hi, hinv => by simpa using hinv
  | q :: r, index, st, hdrop, hi, hinv => by
    have hq : prices.getD index 0 = q := by
      have h1 : some q = prices[index]? := by
        have h2 := congrArg (fun l : List ℚ => l[0]?) hdrop
        simpa [List.getElem?_drop] using h2
      simp [List.getD, ← h1]
    have hr2 : r = prices.drop (index + 1) := by
      have h3 := congrArg (List.drop 1) hdrop
      rw [List.drop_drop] at h3
      simpa [Nat.add_comm] using h3
    have hstep := bdtStep_fit_inv sqrtf cfg prices st index hmo hi hinv
    rw [hq] at hstep
    have hrec := bdtGo_fit_inv sqrtf cfg prices hmo r (index + 1)
      (bdtStep sqrtf cfg prices st index q) hr2 (by omega) hstep
    show BdtFitInv prices (bdtGo sqrtf cfg prices (index + 1) r _) _
    rw [show index + (q :: r).length = index + 1 + r.length by simp; omega]
    exact hrec

/-- C4 (amended): with `max_outliers = 0` and at least 3 prices, every
segment emitted by `break_down_trends` either is the two-point bootstrap
segment `(0, 1, 0.0, 0.0)` (emitted, before any fit exists, when a break
fires at index 2) or stores exactly the `(slope, intercept)` that
`get_trend_line` produces on the segment's own points — so refitting
reproduces the stored pair exactly, within any tolerance.  (With
`max_outliers > 0` the stored fit can exclude skipped outlier points that lie
inside the emitted range, and for series of length ≤ 2 the only segment is
the unfitted bootstrap, so the claim fails there; see the counterexample.) -/
theorem break_down_trends_refit_exact (sqrtf : ℚ → ℚ) (prices : List ℚ)
    (cfg : TrendBreakConfig) (segs : List (ℕ × ℕ × ℚ × ℚ))
    (hmo : cfg.max_outliers = 0) (hn : 3 ≤ prices.length)
    (hr : break_down_trends sqrtf prices cfg = .ok segs) :
    ∀ s ∈ segs, s = (0, 1, 0, 0) ∨
      (s.2.2.1, s.2.2.2) = get_trend_line (segPoints prices s.1 s.2.1) := by
  obtain ⟨p0, p1, rest2, rfl⟩ : ∃ p0 p1 r2, prices = p0 :: p1 :: r2 := by
    cases prices with
    | nil => simp only [List.length_nil] at hn; omega
    | cons p0 t =>
      cases t with
      | nil => simp only [List.length_cons, List.length_nil] at hn; omega
      | cons p1 r2 => exact ⟨p0, p1, r2, rfl⟩
  simp only [break_down_trends, List.cons_ne_nil, if_false, Except.ok.injEq] at hr
  subst hr
  have hunf : bdtGo sqrtf cfg (p0 :: p1 :: rest2) 0 (p0 :: p1 :: rest2)
      ⟨[], [], 0, 0, 0, 1, [], f64MAX⟩ =
      bdtGo sqrtf cfg (p0 :: p1 :: rest2) 2 rest2
        ⟨[], [], 0, 0, 0, 1, [(p0, 0), (p1, 1)], f64MAX⟩ := rfl
  rw [hunf]
  have hst2 : BdtFitInv (p0 :: p1 :: rest2)
      ⟨[], [], 0, 0, 0, 1, [(p0, 0), (p1, 1)], f64MAX⟩ 2 :=
    ⟨rfl, by dsimp only; omega, rfl, Or.inr ⟨rfl, rfl, rfl, rfl⟩,
      by intro s hs; simp at hs⟩
  have hgo := bdtGo_fit_inv sqrtf cfg (p0 :: p1 :: rest2) hmo rest2 2 _ rfl le_rfl hst2
  obtain ⟨hend, hstart, hpts, hcur, htr⟩ := hgo
  intro s hs
  rcases List.mem_append.mp hs with hs | hs
  · exact htr s hs
  · have hseq := List.mem_singleton.mp hs
    subst hseq
    rcases hcur with hfit | ⟨h0, h1, hs0, hi0⟩
    · right
      dsimp only
      rw [hend, ← hpts]
      exact hfit
    · exfalso
      simp only [List.length_cons] at h1 hn
      omega

/-- C4 counterexample to the claim as stated: on the two-price series
`[100, 101]` (default-valued configuration) the emitted segment is
`(0, 1, 0.0, 0.0)` — no fit is ever computed for series of length ≤ 2 —
while refitting the segment's two points gives slope 1 and intercept 100;
the slopes differ by 1, far beyond the `1e-9` tolerance. -/
theorem break_down_trends_refit_counterexample :
    break_down_trends sqId [(100 : ℚ), 101]
      ⟨1, 1/4, 1/20, 13/10, 2, 1, 3, 7/10, 33/10⟩ = .ok [(0, 1, 0, 0)] ∧
    get_trend_line (segPoints [(100 : ℚ), 101] 0 1) = (1, 100) ∧
    ¬(|(0 : ℚ) - 1| ≤ 1 / 10 ^ 9) := by
  refine ⟨rfl, ?_, by norm_num⟩
  norm_num [get_trend_line, segPoints, List.getD, List.foldl,
    show List.range' 0 2 = [0, 1] from rfl]

theorem break_down_trends_refit_exact_witness :
    ((⟨0, 0, 0, 1, 1, 0, 4, 0, 4⟩ : TrendBreakConfig).max_outliers = 0 ∧
      3 ≤ ([(1 : ℚ), 2, 4] : List ℚ).length ∧
      break_down_trends sqId [(1 : ℚ), 2, 4] ⟨0, 0, 0, 1, 1, 0, 4, 0, 4⟩ =
        .ok [(0, 2, 3/2, 5/6)]) ∧
    ∀ s ∈ [((0 : ℕ), (2 : ℕ), (3 : ℚ)/2, (5 : ℚ)/6)], s = (0, 1, 0, 0) ∨
      (s.2.2.1, s.2.2.2) = get_trend_line (segPoints [(1 : ℚ), 2, 4] s.1 s.2.1) :=
  ⟨⟨rfl, by norm_num, by
      norm_num [break_down_trends, bdtGo, bdtStep, goodness_of_fit, get_trend_line,
        singleMean, segPoints, f64MAX, sqId, List.getD, List.foldl,
        show List.range 2 = [0, 1] from rfl, show List.range 3 = [0, 1, 2] from rfl]
      intro h
      simp at h⟩,
    break_down_trends_refit_exact sqId [(1 : ℚ), 2, 4] ⟨0, 0, 0, 1, 1, 0, 4, 0, 4⟩
      [((0 : ℕ), (2 : ℕ), (3 : ℚ)/2, (5 : ℚ)/6)] rfl (by norm_num)
      (by
        norm_num [break_down_trends, bdtGo, bdtStep, goodness_of_fit, get_trend_line,
          singleMean, segPoints, f64MAX, sqId, List.getD, List.foldl,
          show List.range 2 = [0, 1] from rfl, show List.range 3 = [0, 1, 2] from rfl]
        intro h
        simp at h)⟩

theorem mapE_ok_of_forall {b : Type} (f : ℕ → Except RtErr b) :
    ∀ l : List ℕ, (∀ a ∈ l, ∃ y, f a = .ok y) →
      ∃ ys, mapE f l = .ok ys ∧ ys.length = l.length
  | [], _ => ⟨[], rfl, rfl⟩
  | a :: l, h => by
    obtain ⟨y, hy⟩ := h a (List.mem_cons_self a l)
    obtain ⟨ys, hys, hlen⟩ :=
      mapE_ok_of_forall f l fun x hx => h x (List.mem_cons_of_mem a hx)
    exact ⟨y :: ys, by simp only [mapE, hy, hys], by simp [hlen]⟩

theorem getP_ok {α : Type} (junk : α) (l : List α) (i : ℕ) (h : i < l.length) :
    getP junk l i = .ok (l.getD i junk) := by
  unfold getP
  rw [if_pos h]

theorem subP_ok (a b : ℕ) (h : b ≤ a) : subP a b = .ok (a - b) := by
  unfold subP
  rw [if_pos h]

theorem mapE_forall_of_ok {b : Type} (f : ℕ → Except RtErr b) :
    ∀ (l : List ℕ) (ys : List b), mapE f l = .ok ys → ∀ a ∈ l, ∃ y, f a = .ok y
  | [], _, _, a, ha => by simp at ha
  | x :: l, ys, h, a, ha => by
    rw [mapE] at h
    cases hx : f x with
    | error e => rw [hx] at h; simp at h
    | ok y =>
      rw [hx] at h
      cases hr : mapE f l with
      | error e => rw [hr] at h; simp at h
      | ok zs =>
        rcases List.mem_cons.mp ha with rfl | ha2
        · exact ⟨y, hx⟩
        · exact mapE_forall_of_ok f l zs hr a ha2

theorem insertSorted_length (x : FQ) : ∀ l : List FQ,
    (insertSorted x l).length = l.length + 1
  | [] => rfl
  | y :: ys => by
    rw [insertSorted]
    cases h : fqLeb x y with
    | true => simp [h]
    | false => simp [h, insertSorted_length x ys]

theorem sortQ_length : ∀ l : List FQ, (sortQ l).length = l.length
  | [] => rfl
  | x :: xs => by rw [sortQ, insertSorted_length, sortQ_length xs, List.length_cons]

theorem singleMedian_ok (l : List FQ) (h : ∃ v ∈ l, fqIsNan v = false) :
    ∃ q, singleMedian l = .ok q := by
  obtain ⟨v, hv, hnv⟩ := h
  have hmem : v ∈ l.filter fun f => !fqIsNan f :=
    List.mem_filter.mpr ⟨hv, by rw [hnv]; rfl⟩
  have hlen : (sortQ (l.filter fun f => !fqIsNan f)).length ≠ 0 := by
    rw [sortQ_length]
    intro hc
    rw [List.length_eq_zero] at hc
    rw [hc] at hmem
    simp at hmem
  simp only [singleMedian]
  by_cases hpar : (sortQ (l.filter fun f => !fqIsNan f)).length % 2 = 0
  · rw [if_pos hpar, subP_ok _ 1 (by omega)]
    exact ⟨_, rfl⟩
  · rw [if_neg hpar]
    exact ⟨_, rfl⟩

theorem singleMedian_err (l : List FQ) (h : ∀ v ∈ l, fqIsNan v = true) :
    singleMedian l = .error (.panik "subtract with overflow") := by
  have hfil : (l.filter fun f => !fqIsNan f) = [] := by
    rw [List.filter_eq_nil]
    intro v hv
    rw [h v hv]
    simp
  simp only [singleMedian, hfil]
  rfl

theorem bulkMedian_ok (dx : List FQ) (period : ℕ) (hp : period ≠ 0)
    (hwin : noAllNanWindow dx period = true) :
    ∃ adx, bulkMedian dx period = .ok adx ∧ adx.length = dx.length + 1 - period := by
  unfold noAllNanWindow at hwin
  obtain ⟨ys, hys, hlen⟩ := mapE_ok_of_forall
    (fun i => singleMedian (win dx period i))
    (List.range (dx.length + 1 - period))
    (fun i hi => by
      have hall := List.all_eq_true.mp hwin i hi
      obtain ⟨v, hv, hnv⟩ := List.any_eq_true.mp hall
      exact singleMedian_ok _ ⟨v, hv, by simpa using hnv⟩)
  refine ⟨ys, ?_, by rw [hlen, List.length_range]⟩
  simp only [bulkMedian]
  rw [if_neg hp]
  exact hys

theorem bulkMedian_noAllNan_of_ok (dx : List FQ) (period : ℕ) (adx : List FQ)
    (h : bulkMedian dx period = .ok adx) : noAllNanWindow dx period = true := by
  by_cases hp : period = 0
  · subst hp
    simp [bulkMedian] at h
  · simp only [bulkMedian] at h
    rw [if_neg hp] at h
    have hall := mapE_forall_of_ok _ _ _ h
    unfold noAllNanWindow
    rw [List.all_eq_true]
    intro i hi
    obtain ⟨y, hy⟩ := hall i hi
    rw [List.any_eq_true]
    by_contra hcon
    push_neg at hcon
    have hnan : ∀ v ∈ win dx period i, fqIsNan v = true := by
      intro v hv
      simpa using hcon v hv
    rw [singleMedian_err _ hnan] at hy
    simp at hy

theorem smoothDx_ok (cmt : ConstantModelType) (dx : List FQ) (period : ℕ)
    (hp : period ≠ 0) (hle : period ≤ dx.length)
    (hmed : cmt = .SimpleMovingMedian → noAllNanWindow dx period = true) :
    ∃ adx, smoothDx cmt dx period = .ok adx ∧ adx.length = dx.length + 1 - period := by
  have h2 : ¬ dx.length < period := by omega
  have hma : ∀ mat, moving_average dx mat period =
      .ok ((List.range (dx.length + 1 - period)).map fun i =>
        fqMean (win dx period i)) := by
    intro mat
    simp [moving_average, hp, h2]
  have hmod : bulkMode dx period =
      .ok ((List.range (dx.length + 1 - period)).map fun i =>
        singleMode (win dx period i)) := by
    simp [bulkMode, hp]
  cases cmt with
  | SimpleMovingAverage => exact ⟨_, hma .Simple, by simp⟩
  | SmoothedMovingAverage => exact ⟨_, hma .Smoothed, by simp⟩
  | ExponentialMovingAverage => exact ⟨_, hma .Exponential, by simp⟩
  | PersonalisedMovingAverage an ad => exact ⟨_, hma (.Personalised an ad), by simp⟩
  | SimpleMovingMedian => exact bulkMedian_ok dx period hp (hmed rfl)
  | SimpleMovingMode => exact ⟨_, hmod, by simp⟩

theorem smoothDx_err_zero (cmt : ConstantModelType) (dx : List FQ) :
    ∃ e, smoothDx cmt dx 0 = .error e := by
  have hma : ∀ mat, moving_average dx mat 0 =
      .error (.err (.InvalidPeriod 0 dx.length "invalid period")) := by
    intro mat
    simp [moving_average]
  have hmed : bulkMedian dx 0 = .error (.panik "window size must be non-zero") := by
    simp [bulkMedian]
  have hmod : bulkMode dx 0 = .error (.panik "window size must be non-zero") := by
    simp [bulkMode]
  cases cmt with
  | SimpleMovingAverage => exact ⟨_, hma .Simple⟩
  | SmoothedMovingAverage => exact ⟨_, hma .Smoothed⟩
  | ExponentialMovingAverage => exact ⟨_, hma .Exponential⟩
  | PersonalisedMovingAverage an ad => exact ⟨_, hma (.Personalised an ad)⟩
  | SimpleMovingMedian => exact ⟨_, hmed⟩
  | SimpleMovingMode => exact ⟨_, hmod⟩

theorem dmsAdxr_ok (adx : List FQ) (period : ℕ) (hp : 1 ≤ period) :
    ∃ adxr, dmsAdxr adx period = .ok adxr ∧ adxr.length = adx.length + 1 - period := by
  unfold dmsAdxr
  obtain ⟨ys, hys, hlen⟩ := mapE_ok_of_forall
    (fun j =>
      let i := j + period
      match subP i 1 with
      | .error e => .error e
      | .ok i1 =>
        match getP FQ.nan adx (i - period) with
        | .error e => .error e
        | .ok a =>
          match getP FQ.nan adx i1 with
          | .error e => .error e
          | .ok b => .ok (fqDiv (fqAdd a b) (.fin 2)))
    (List.range (adx.length + 1 - period))
    (fun j hj => by
      have hj2 := List.mem_range.mp hj
      refine ⟨fqDiv (fqAdd (adx.getD (j + period - period) .nan)
        (adx.getD (j + period - 1) .nan)) (.fin 2), ?_⟩
      simp only [subP_ok (j + period) 1 (by omega),
        getP_ok FQ.nan adx (j + period - period) (by omega),
        getP_ok FQ.nan adx (j + period - 1) (by omega)])
  exact ⟨ys, hys, by rw [hlen]; simp⟩

theorem dmsAssemble_ok (positive_di negative_di adx adxr : List FQ) (period : ℕ)
    (hbnd : ∀ i < adxr.length, i + 2 * period - 2 < positive_di.length ∧
      i + 2 * period - 2 < negative_di.length ∧ i + period - 1 < adx.length ∧
      2 ≤ i + 2 * period ∧ 1 ≤ i + period) :
    ∃ res, dmsAssemble positive_di negative_di adx adxr period = .ok res ∧
      res.length = adxr.length := by
  unfold dmsAssemble
  obtain ⟨ys, hys, hlen⟩ := mapE_ok_of_forall
    (fun i =>
      match subP (i + 2 * period) 2 with
      | .error e => .error e
      | .ok k =>
        match getP FQ.nan positive_di k with
        | .error e => .error e
        | .ok pdi =>
          match getP FQ.nan negative_di k with
          | .error e => .error e
          | .ok ndi =>
            match subP (i + period) 1 with
            | .error e => .error e
            | .ok j2 =>
              match getP FQ.nan adx j2 with
              | .error e => .error e
              | .ok a =>
                match getP FQ.nan adxr i with
                | .error e => .error e
                | .ok r => .ok (pdi, ndi, a, r))
    (List.range adxr.length)
    (fun i hi => by
      have hi2 := List.mem_range.mp hi
      obtain ⟨hb1, hb2, hb3, hb4, hb5⟩ := hbnd i hi2
      refine ⟨(positive_di.getD (i + 2 * period - 2) .nan,
        negative_di.getD (i + 2 * period - 2) .nan,
        adx.getD (i + period - 1) .nan, adxr.getD i .nan), ?_⟩
      simp only [subP_ok (i + 2 * period) 2 hb4, getP_ok FQ.nan positive_di _ hb1,
        getP_ok FQ.nan negative_di _ hb2, subP_ok (i + period) 1 hb5,
        getP_ok FQ.nan adx _ hb3, getP_ok FQ.nan adxr i (by omega)])
  exact ⟨ys, hys, by rw [hlen]; simp⟩

theorem dmsDis_length (high low close : List ℚ) (period : ℕ) :
    (dmsDis high low close period).length = high.length - period := by
  simp [dmsDis]

theorem dmsDx_length (high low close : List ℚ) (period : ℕ) :
    (dmsDx high low close period).length = high.length - period := by
  simp [dmsDx, dmsDis_length]

theorem dms_ok (high low close : List ℚ) (period : ℕ) (cmt : ConstantModelType)
    (h1 : high.length = low.length) (h2 : high.length = close.length)
    (hne : high ≠ []) (h3 : 3 * period ≤ high.length) (hp : period ≠ 0)
    (hmed : cmt = .SimpleMovingMedian →
      noAllNanWindow (dmsDx high low close period) period = true) :
    ∃ res, directional_movement_system high low close period cmt = .ok res := by
  have hlp : 0 < high.length := List.length_pos.mpr hne
  obtain ⟨adx, hadx, halen⟩ := smoothDx_ok cmt (dmsDx high low close period) period hp
    (by rw [dmsDx_length]; omega) hmed
  rw [dmsDx_length] at halen
  obtain ⟨adxr, hadxr, hrlen⟩ := dmsAdxr_ok adx period (by omega)
  obtain ⟨res, hres, -⟩ := dmsAssemble_ok ((dmsDis high low close period).map Prod.fst)
    ((dmsDis high low close period).map Prod.snd) adx adxr period
    (fun i hi => by
      rw [hrlen] at hi
      constructor
      · rw [List.length_map, dmsDis_length]; omega
      constructor
      · rw [List.length_map, dmsDis_length]; omega
      refine ⟨by omega, by omega, by omega⟩)
  refine ⟨res, ?_⟩
  unfold directional_movement_system
  rw [if_neg (by omega), if_neg (by simpa using hne), if_neg (by omega)]
  simp only [hadx, subP_ok adx.length period (by omega),
    subP_ok (adx.length - period) 1 (by omega), hadxr]
  exact hres

theorem dms_err_mismatch (high low close : List ℚ) (period : ℕ) (cmt : ConstantModelType)
    (h : ¬(high.length = low.length ∧ high.length = close.length)) :
    directional_movement_system high low close period cmt =
      .error (.panik "Length of high, low, and close need to be equal") := by
  unfold directional_movement_system
  rw [if_pos (by omega)]

theorem dms_err_empty (high low close : List ℚ) (period : ℕ) (cmt : ConstantModelType)
    (he : high = []) :
    directional_movement_system high low close period cmt ≠ .ok res := by
  unfold directional_movement_system
  by_cases h1 : high.length = low.length ∧ high.length = close.length
  · rw [if_neg (by omega), if_pos he]
    simp
  · rw [if_pos (by omega)]
    simp

theorem dms_err_short (high low close : List ℚ) (period : ℕ) (cmt : ConstantModelType)
    (h1 : high.length = low.length) (h2 : high.length = close.length)
    (hne : high ≠ []) (h3 : high.length < 3 * period) :
    directional_movement_system high low close period cmt =
      .error (.panik "Length of prices must be greater") := by
  unfold directional_movement_system
  rw [if_neg (by omega), if_neg hne, if_pos (by omega)]

theorem dms_err_period_zero (high low close : List ℚ) (cmt : ConstantModelType)
    (h1 : high.length = low.length) (h2 : high.length = close.length)
    (hne : high ≠ []) :
    ∃ e, directional_movement_system high low close 0 cmt = .error e := by
  obtain ⟨e, he⟩ := smoothDx_err_zero cmt (dmsDx high low close 0)
  refine ⟨e, ?_⟩
  unfold directional_movement_system
  rw [if_neg (by omega), if_neg hne, if_neg (by omega)]
  simp only [he]

/-- C7 (amended): `directional_movement_system` fails exactly when the three
input slices have mismatched lengths, the input is empty, the shared length
is less than `3·period`, `period == 0` (the `3·period ≤ len` check lets
`period = 0` through, but the smoothing of the DX series then rejects it:
`InvalidPeriod` from the moving-average collaborator, or the `windows(0)`
panic of the bulk median/mode), or the smoothing is `SimpleMovingMedian` and
some `period`-window of the DX series is entirely NaN (on flat data the
true-range sums are zero, the DI quotients `0/0` are NaN, and
`single::median` panics indexing its NaN-filtered empty window); for all
other inputs it returns a result. -/
theorem directional_movement_system_ok_iff (high low close : List ℚ) (period : ℕ)
    (cmt : ConstantModelType) :
    (∃ res, directional_movement_system high low close period cmt = .ok res) ↔
      (high.length = low.length ∧ high.length = close.length ∧ high ≠ [] ∧
        3 * period ≤ high.length ∧ period ≠ 0 ∧
        (cmt = .SimpleMovingMedian →
          noAllNanWindow (dmsDx high low close period) period = true)) := by
  constructor
  · rintro ⟨res, hres⟩
    by_cases h1 : high.length = low.length ∧ high.length = close.length
    · obtain ⟨h1a, h1b⟩ := h1
      by_cases he : high = []
      · exact absurd hres (dms_err_empty high low close period cmt he)
      · by_cases h3 : 3 * period ≤ high.length
        · by_cases hp : period = 0
          · subst hp
            obtain ⟨e, hee⟩ := dms_err_period_zero high low close cmt h1a h1b he
            rw [hee] at hres
            simp at hres
          · refine ⟨h1a, h1b, he, h3, hp, ?_⟩
            intro hcmt
            subst hcmt
            unfold directional_movement_system at hres
            rw [if_neg (by omega), if_neg he, if_neg (by omega)] at hres
            cases hsm : smoothDx .SimpleMovingMedian (dmsDx high low close period)
                period with
            | error e => rw [hsm] at hres; simp at hres
            | ok adx =>
              have hbm : bulkMedian (dmsDx high low close period) period = .ok adx := hsm
              exact bulkMedian_noAllNan_of_ok _ _ _ hbm
        · rw [dms_err_short high low close period cmt h1a h1b he (by omega)] at hres
          simp at hres
    · rw [dms_err_mismatch high low close period cmt h1] at hres
      simp at hres
  · rintro ⟨hh1, hh2, hne, hh3, hp, hmed⟩
    exact dms_ok high low close period cmt hh1 hh2 hne hh3 hp hmed

theorem directional_movement_system_ok_iff_witness :
    ∃ res, directional_movement_system [(1 : ℚ), 2, 3] [(0 : ℚ), 1, 2] [(1 : ℚ), 2, 3] 1
      .SimpleMovingAverage = .ok res :=
  (directional_movement_system_ok_iff [(1 : ℚ), 2, 3] [(0 : ℚ), 1, 2] [(1 : ℚ), 2, 3] 1
    .SimpleMovingAverage).mpr
    ⟨rfl, rfl, by simp, by norm_num, by norm_num, fun h => nomatch h⟩

/-- C7 counterexample to the claim as stated, in two parts.  (a) With
equal-length non-empty inputs and `period = 0` the stated precondition
`3·period ≤ len` is met (`0 ≤ 3`), yet the call fails: the DX smoothing
rejects `period = 0`.  (b) With flat inputs (`high = low = close = [1,1,1]`),
`period = 1` and median smoothing, every stated precondition is met
(`3·1 ≤ 3`, `period ≠ 0`), yet the call fails: every true-range window sums
to zero, the DI quotients `0/0` are NaN, both DX windows are all-NaN, and
`single::median` hits the debug-mode `0 - 1` underflow indexing its
NaN-filtered empty window. -/
theorem directional_movement_system_counterexample :
    (directional_movement_system [(1 : ℚ), 2, 3] [(0 : ℚ), 1, 2] [(1 : ℚ), 2, 3] 0
      .SimpleMovingAverage = .error (.err (.InvalidPeriod 0 3 "invalid period"))) ∧
    (3 * 1 ≤ ([(1 : ℚ), 1, 1] : List ℚ).length ∧
      directional_movement_system [(1 : ℚ), 1, 1] [(1 : ℚ), 1, 1] [(1 : ℚ), 1, 1] 1
        .SimpleMovingMedian = .error (.panik "subtract with overflow")) := by
  refine ⟨?_, by norm_num, ?_⟩
  · unfold directional_movement_system
    rw [if_neg (by simp), if_neg (by simp), if_neg (by norm_num)]
    have h : smoothDx .SimpleMovingAverage (dmsDx [(1 : ℚ), 2, 3] [(0 : ℚ), 1, 2]
        [(1 : ℚ), 2, 3] 0) 0 = .error (.err (.InvalidPeriod 0 3 "invalid period")) := by
      have hlen : (dmsDx [(1 : ℚ), 2, 3] [(0 : ℚ), 1, 2] [(1 : ℚ), 2, 3] 0).length = 3 := by
        rw [dmsDx_length]
        simp
      simp [smoothDx, moving_average, hlen]
    simp only [h]
  · have hdx : dmsDx [(1 : ℚ), 1, 1] [(1 : ℚ), 1, 1] [(1 : ℚ), 1, 1] 1 =
        [.nan, .nan] := by
      norm_num [dmsDx, dmsDis, dmsDm, true_range, sliceQ, win, fqMul, fqDiv, fqAdd,
        fqSub, fqNeg, fqAbs, List.getD, show List.range 2 = [0, 1] from rfl]
    have hsm : smoothDx .SimpleMovingMedian [FQ.nan, FQ.nan] 1 =
        .error (.panik "subtract with overflow") := rfl
    unfold directional_movement_system
    rw [if_neg (by simp), if_neg (by simp), if_neg (by norm_num), hdx, hsm]

/-- C9: when the first window's extremum sits at index 0, index 0 is also the
scan's "no extremum yet" sentinel, so the next window's extremum is appended
unconditionally — even when it lies within `closest_neighbor` of index 0 and
is worse than the extremum there (the absorb/replace logic would otherwise
have suppressed it).  Stated for a series with exactly two windows; the two
conjuncts cover `peaks` and, symmetrically, `valleys`. -/
theorem peaks_valleys_sentinel_bypass (prices : List ℚ) (period closest li1 : ℕ)
    (hlen : prices.length = period + 1) (hp : 1 ≤ period) :
    (rposAux (win prices period 0) (singleMax (win prices period 0)) = some 0 →
      rposAux (win prices period 1) (singleMax (win prices period 1)) = some li1 →
      1 + li1 ≤ 0 + closest →
      singleMax (win prices period 1) < singleMax (win prices period 0) →
      peaks prices period closest =
        .ok [(singleMax (win prices period 0), 0),
          (singleMax (win prices period 1), 1 + li1)]) ∧
    (rposAux (win prices period 0) (singleMin (win prices period 0)) = some 0 →
      rposAux (win prices period 1) (singleMin (win prices period 1)) = some li1 →
      1 + li1 ≤ 0 + closest →
      singleMin (win prices period 0) < singleMin (win prices period 1) →
      valleys prices period closest =
        .ok [(singleMin (win prices period 0), 0),
          (singleMin (win prices period 1), 1 + li1)]) := by
  constructor
  · intro h1 h2 _h3 _h4
    rw [peaks, if_neg (by omega)]
    rw [show prices.length - period + 1 = 2 by omega]
    simp [peaksGo, peakStep, h1, h2]
  · intro h1 h2 _h3 _h4
    rw [valleys, if_neg (by omega)]
    rw [show prices.length - period + 1 = 2 by omega]
    simp [valleysGo, valleyStep, h1, h2]

theorem peaks_valleys_sentinel_bypass_witness :
    (peaks [(10 : ℚ), 1] 1 5 = .ok [(10, 0), (1, 1 + 0)]) ∧
    (valleys [(1 : ℚ), 10] 1 5 = .ok [(1, 0), (10, 1 + 0)]) :=
  ⟨by
    have h := (peaks_valleys_sentinel_bypass [(10 : ℚ), 1] 1 5 0 (by simp) le_rfl).1
      (by norm_num [win, singleMax, rposAux])
      (by norm_num [win, singleMax, rposAux])
      (by norm_num) (by norm_num [win, singleMax])
    rw [h]
    norm_num [win, singleMax],
  by
    have h := (peaks_valleys_sentinel_bypass [(1 : ℚ), 10] 1 5 0 (by simp) le_rfl).2
      (by norm_num [win, singleMin, rposAux])
      (by norm_num [win, singleMin, rposAux])
      (by norm_num) (by norm_num [win, singleMin])
    rw [h]
    norm_num [win, singleMin]⟩

theorem getD_mem_of_lt (l : List ℚ) (i : ℕ) (h : i < l.length) : l.getD i 0 ∈ l := by
  rw [List.getD_eq_getElem?_getD, List.getElem?_eq_getElem h]
  simp [List.getElem_mem]

theorem foldl_max_mem : ∀ (xs : List ℚ) (x : ℚ), xs.foldl max x ∈ x :: xs
  | [], _ => List.mem_singleton.mpr rfl
  | y :: ys, x => by
    simp only [List.foldl_cons, List.mem_cons]
    have h := foldl_max_mem ys (max x y)
    rcases List.mem_cons.mp h with h | h
    · rcases max_choice x y with hm | hm
      · exact Or.inl (by rw [h, hm])
      · exact Or.inr (Or.inl (by rw [h, hm]))
    · exact Or.inr (Or.inr h)

theorem le_foldl_max_init : ∀ (xs : List ℚ) (x : ℚ), x ≤ xs.foldl max x
  | [], _ => le_refl _
  | y :: ys, x =>
    le_trans (le_max_left x y) (le_foldl_max_init ys (max x y))

theorem le_foldl_max : ∀ (xs : List ℚ) (x a : ℚ), a ∈ x :: xs → a ≤ xs.foldl max x
  | [], x, a, h => by simp at h; simp [h]
  | y :: ys, x, a, h => by
    simp only [List.foldl_cons]
    rcases List.mem_cons.mp h with rfl | h
    · exact le_trans (le_max_left a y) (le_foldl_max_init ys (max a y))
    · rcases List.mem_cons.mp h with rfl | h
      · exact le_trans (le_max_right x a) (le_foldl_max_init ys (max x a))
      · exact le_foldl_max ys (max x y) a (List.mem_cons_of_mem _ h)

theorem singleMax_mem (l : List ℚ) (h : l ≠ []) : singleMax l ∈ l := by
  cases l with
  | nil => exact absurd rfl h
  | cons x xs => exact foldl_max_mem xs x

theorem le_singleMax (l : List ℚ) (a : ℚ) (h : a ∈ l) : a ≤ singleMax l := by
  cases l with
  | nil => simp at h
  | cons x xs => exact le_foldl_max xs x a h

theorem rposAux_lt (v : ℚ) : ∀ (l : List ℚ) (k : ℕ), rposAux l v = some k → k < l.length
  | [], k, h => by simp [rposAux] at h
  | x :: xs, k, h => by
    rw [rposAux] at h
    match hx : rposAux xs v with
    | some k2 =>
      rw [hx] at h
      simp only [Option.some.injEq] at h
      have := rposAux_lt v xs k2 hx
      simp only [List.length_cons]
      omega
    | none =>
      rw [hx] at h
      by_cases he : x = v
      · rw [if_pos he] at h
        simp only [Option.some.injEq] at h
        simp [← h]
      · rw [if_neg he] at h
        simp at h

theorem rposAux_getD (v : ℚ) :
    ∀ (l : List ℚ) (k : ℕ), rposAux l v = some k → l.getD k 0 = v
  | [], k, h => by simp [rposAux] at h
  | x :: xs, k, h => by
    rw [rposAux] at h
    match hx : rposAux xs v with
    | some k2 =>
      rw [hx] at h
      simp only [Option.some.injEq] at h
      subst h
      simpa using rposAux_getD v xs k2 hx
    | none =>
      rw [hx] at h
      by_cases he : x = v
      · rw [if_pos he] at h
        simp only [Option.some.injEq] at h
        subst h
        simpa using he
      · rw [if_neg he] at h
        simp at h

theorem rposAux_none (v : ℚ) : ∀ (l : List ℚ), rposAux l v = none → v ∉ l
  | [], _ => by simp
  | x :: xs, h => by
    rw [rposAux] at h
    match hx : rposAux xs v with
    | some k2 => rw [hx] at h; simp at h
    | none =>
      rw [hx] at h
      by_cases he : x = v
      · rw [if_pos he] at h; simp at h
      · rw [if_neg he] at h
        have := rposAux_none v xs hx
        simp [List.mem_cons, this]
        intro hc
        exact he hc.symm

theorem rposAux_rightmost (v : ℚ) :
    ∀ (l : List ℚ) (k : ℕ), rposAux l v = some k →
      ∀ j, k < j → j < l.length → l.getD j 0 ≠ v
  | [], k, h => by simp [rposAux] at h
  | x :: xs, k, h => by
    rw [rposAux] at h
    match hx : rposAux xs v with
    | some k2 =>
      rw [hx] at h
      simp only [Option.some.injEq] at h
      subst h
      intro j hj hjl
      have hj1 : ∃ j2, j = j2 + 1 := ⟨j - 1, by omega⟩
      obtain ⟨j2, rfl⟩ := hj1
      simp only [List.length_cons] at hjl
      have := rposAux_rightmost v xs k2 hx j2 (by omega) (by omega)
      simpa using this
    | none =>
      rw [hx] at h
      by_cases he : x = v
      · rw [if_pos he] at h
        simp only [Option.some.injEq] at h
        subst h
        intro j hj hjl
        have hj1 : ∃ j2, j = j2 + 1 := ⟨j - 1, by omega⟩
        obtain ⟨j2, rfl⟩ := hj1
        have hnm := rposAux_none v xs hx
        simp only [List.length_cons] at hjl
        simp only [List.getD_cons_succ]
        intro hc
        have hmem : xs.getD j2 0 ∈ xs := getD_mem_of_lt xs j2 (by omega)
        rw [hc] at hmem
        exact hnm hmem
      · rw [if_neg he] at h
        simp at h

theorem win_length (prices : List ℚ) (p i : ℕ) (h : i + p ≤ prices.length) :
    (win prices p i).length = p := by
  simp only [win, List.length_take, List.length_drop]
  omega

theorem win_getD (prices : List ℚ) (p i k : ℕ) (hk : k < p)
    (h : i + p ≤ prices.length) :
    (win prices p i).getD k 0 = prices.getD (i + k) 0 := by
  rw [List.getD_eq_getElem?_getD, List.getD_eq_getElem?_getD, win,
    List.getElem?_take_of_lt hk, List.getElem?_drop]

theorem winPeakIdx_spec (prices : List ℚ) (p i : ℕ) (hp : 1 ≤ p)
    (hfull : i + p ≤ prices.length) :
    i ≤ winPeakIdx prices p i ∧ winPeakIdx prices p i < i + p ∧
    prices.getD (winPeakIdx prices p i) 0 = singleMax (win prices p i) ∧
    (∀ j, winPeakIdx prices p i < j → j < i + p →
      prices.getD j 0 ≠ singleMax (win prices p i)) ∧
    (∀ j, i ≤ j → j < i + p → prices.getD j 0 ≤ singleMax (win prices p i)) := by
  have hwl := win_length prices p i hfull
  have hwne : win prices p i ≠ [] := by
    intro hc
    rw [hc] at hwl
    simp at hwl
    omega
  have hmem := singleMax_mem _ hwne
  obtain ⟨k, hk⟩ : ∃ k, rposAux (win prices p i) (singleMax (win prices p i)) = some k := by
    cases hrp : rposAux (win prices p i) (singleMax (win prices p i)) with
    | some k => exact ⟨k, rfl⟩
    | none => exact absurd hmem (rposAux_none _ _ hrp)
  have hklt := rposAux_lt _ _ _ hk
  rw [hwl] at hklt
  have hwpi : winPeakIdx prices p i = i + k := by simp [winPeakIdx, hk]
  refine ⟨by omega, by omega, ?_, ?_, ?_⟩
  · rw [hwpi, ← win_getD prices p i k hklt hfull]
    exact rposAux_getD _ _ _ hk
  · intro j hj hjp
    rw [hwpi] at hj
    rw [show j = i + (j - i) by omega, ← win_getD prices p i (j - i) (by omega) hfull]
    exact rposAux_rightmost _ _ _ hk (j - i) (by omega) (by rw [hwl]; omega)
  · intro j hj hjp
    rw [show j = i + (j - i) by omega, ← win_getD prices p i (j - i) (by omega) hfull]
    exact le_singleMax _ _ (getD_mem_of_lt _ _ (by rw [hwl]; omega))

theorem winPeakIdx_mono (prices : List ℚ) (p i : ℕ) (hp : 1 ≤ p)
    (hfull : i + 1 + p ≤ prices.length) :
    winPeakIdx prices p i ≤ winPeakIdx prices p (i + 1) := by
  obtain ⟨ha1, ha2, ha3, ha4, ha5⟩ := winPeakIdx_spec prices p i hp (by omega)
  obtain ⟨hb1, hb2, hb3, hb4, hb5⟩ := winPeakIdx_spec prices p (i + 1) hp hfull
  by_contra hcon
  push_neg at hcon
  have hai : i + 1 ≤ winPeakIdx prices p i := by omega
  have h1 : prices.getD (winPeakIdx prices p i) 0 ≤ singleMax (win prices p (i + 1)) :=
    hb5 _ hai (by omega)
  have h2 : prices.getD (winPeakIdx prices p (i + 1)) 0 ≤ singleMax (win prices p i) :=
    ha5 _ (by omega) (by omega)
  rw [ha3] at h1
  rw [hb3] at h2
  have heq : singleMax (win prices p (i + 1)) = singleMax (win prices p i) := le_antisymm h2 h1
  exact hb4 (winPeakIdx prices p i) hcon (by omega) (by rw [ha3, ← heq])

theorem foldl_min_mem : ∀ (xs : List ℚ) (x : ℚ), xs.foldl min x ∈ x :: xs
  | [], _ => List.mem_singleton.mpr rfl
  | y :: ys, x => by
    simp only [List.foldl_cons, List.mem_cons]
    have h := foldl_min_mem ys (min x y)
    rcases List.mem_cons.mp h with h | h
    · rcases min_choice x y with hm | hm
      · exact Or.inl (by rw [h, hm])
      · exact Or.inr (Or.inl (by rw [h, hm]))
    · exact Or.inr (Or.inr h)

theorem foldl_min_le_init : ∀ (xs : List ℚ) (x : ℚ), xs.foldl min x ≤ x
  | [], _ => le_refl _
  | y :: ys, x =>
    le_trans (foldl_min_le_init ys (min x y)) (min_le_left x y)

theorem foldl_min_le : ∀ (xs : List ℚ) (x a : ℚ), a ∈ x :: xs → xs.foldl min x ≤ a
  | [], x, a, h => by simp at h; simp [h]
  | y :: ys, x, a, h => by
    simp only [List.foldl_cons]
    rcases List.mem_cons.mp h with rfl | h
    · exact le_trans (foldl_min_le_init ys (min a y)) (min_le_left a y)
    · rcases List.mem_cons.mp h with rfl | h
      · exact le_trans (foldl_min_le_init ys (min x a)) (min_le_right x a)
      · exact foldl_min_le ys (min x y) a (List.mem_cons_of_mem _ h)

theorem singleMin_mem (l : List ℚ) (h : l ≠ []) : singleMin l ∈ l := by
  cases l with
  | nil => exact absurd rfl h
  | cons x xs => exact foldl_min_mem xs x

theorem singleMin_le (l : List ℚ) (a : ℚ) (h : a ∈ l) : singleMin l ≤ a := by
  cases l with
  | nil => simp at h
  | cons x xs => exact foldl_min_le xs x a h

theorem winValleyIdx_spec (prices : List ℚ) (p i : ℕ) (hp : 1 ≤ p)
    (hfull : i + p ≤ prices.length) :
    i ≤ winValleyIdx prices p i ∧ winValleyIdx prices p i < i + p ∧
    prices.getD (winValleyIdx prices p i) 0 = singleMin (win prices p i) ∧
    (∀ j, winValleyIdx prices p i < j → j < i + p →
      prices.getD j 0 ≠ singleMin (win prices p i)) ∧
    (∀ j, i ≤ j → j < i + p → singleMin (win prices p i) ≤ prices.getD j 0) := by
  have hwl := win_length prices p i hfull
  have hwne : win prices p i ≠ [] := by
    intro hc
    rw [hc] at hwl
    simp at hwl
    omega
  have hmem := singleMin_mem _ hwne
  obtain ⟨k, hk⟩ : ∃ k, rposAux (win prices p i) (singleMin (win prices p i)) = some k := by
    cases hrp : rposAux (win prices p i) (singleMin (win prices p i)) with
    | some k => exact ⟨k, rfl⟩
    | none => exact absurd hmem (rposAux_none _ _ hrp)
  have hklt := rposAux_lt _ _ _ hk
  rw [hwl] at hklt
  have hwpi : winValleyIdx prices p i = i + k := by simp [winValleyIdx, hk]
  refine ⟨by omega, by omega, ?_, ?_, ?_⟩
  · rw [hwpi, ← win_getD prices p i k hklt hfull]
    exact rposAux_getD _ _ _ hk
  · intro j hj hjp
    rw [hwpi] at hj
    rw [show j = i + (j - i) by omega, ← win_getD prices p i (j - i) (by omega) hfull]
    exact rposAux_rightmost _ _ _ hk (j - i) (by omega) (by rw [hwl]; omega)
  · intro j hj hjp
    rw [show j = i + (j - i) by omega, ← win_getD prices p i (j - i) (by omega) hfull]
    exact singleMin_le _ _ (getD_mem_of_lt _ _ (by rw [hwl]; omega))

theorem winValleyIdx_mono (prices : List ℚ) (p i : ℕ) (hp : 1 ≤ p)
    (hfull : i + 1 + p ≤ prices.length) :
    winValleyIdx prices p i ≤ winValleyIdx prices p (i + 1) := by
  obtain ⟨ha1, ha2, ha3, ha4, ha5⟩ := winValleyIdx_spec prices p i hp (by omega)
  obtain ⟨hb1, hb2, hb3, hb4, hb5⟩ := winValleyIdx_spec prices p (i + 1) hp hfull
  by_contra hcon
  push_neg at hcon
  have hai : i + 1 ≤ winValleyIdx prices p i := by omega
  have h1 : singleMin (win prices p (i + 1)) ≤ prices.getD (winValleyIdx prices p i) 0 :=
    hb5 _ hai (by omega)
  have h2 : singleMin (win prices p i) ≤ prices.getD (winValleyIdx prices p (i + 1)) 0 :=
    ha5 _ (by omega) (by omega)
  rw [ha3] at h1
  rw [hb3] at h2
  have heq : singleMin (win prices p (i + 1)) = singleMin (win prices p i) :=
    le_antisymm h1 h2
  exact hb4 (winValleyIdx prices p i) hcon (by omega) (by rw [ha3, ← heq])

theorem chain'_snoc_lt (l : List ℕ) (b : ℕ)
    (hch : List.Chain' (fun a c => a < c) l) (hlt : ∀ a ∈ l.getLast?, a < b) :
    List.Chain' (fun a c => a < c) (l ++ [b]) := by
  rw [List.chain'_append]
  refine ⟨hch, List.chain'_singleton b, ?_⟩
  intro x hx y hy
  simp only [List.head?_cons, Option.mem_some_iff] at hy
  subst hy
  exact hlt x hx
theorem peakStep_inv (prices : List ℚ) (period closest : ℕ) (st : ExtScan) (i : ℕ)
    (hp : 1 ≤ period) (hfull : i + period ≤ prices.length)
    (hinv : PeakInv prices period st i) :
    ∃ st2, peakStep prices period closest st i = .ok st2 ∧
      PeakInv prices period st2 (i + 1) := by
  unfold PeakInv at hinv
  obtain ⟨hch, hlast, hsent, hne0, hi1, hmon⟩ := hinv
  obtain ⟨hw1, hw2, hw3, hw4, hw5⟩ := winPeakIdx_spec prices period i hp hfull
  have hwl := win_length prices period i hfull
  have hwne : win prices period i ≠ [] := by
    intro hc
    rw [hc] at hwl
    simp at hwl
    omega
  obtain ⟨li, hli⟩ :
      ∃ k, rposAux (win prices period i) (singleMax (win prices period i)) = some k := by
    cases hrp : rposAux (win prices period i) (singleMax (win prices period i)) with
    | some k => exact ⟨k, rfl⟩
    | none => exact absurd (singleMax_mem _ hwne) (rposAux_none _ _ hrp)
  have hwpi : winPeakIdx prices period i = i + li := by simp [winPeakIdx, hli]
  have hmono : i + 1 + period ≤ prices.length →
      winPeakIdx prices period i ≤ winPeakIdx prices period (i + 1) :=
    fun h => winPeakIdx_mono prices period i hp h
  simp only [peakStep, hli]
  by_cases hz : st.lastIdx = 0
  · rw [if_neg (by simp [hz])]
    refine ⟨_, rfl, ?_⟩
    unfold PeakInv
    dsimp only
    rcases hsent hz with h0 | ⟨v, h0⟩
    · refine ⟨?_, ?_, ?_, ?_, ?_, ?_⟩
      · rw [h0]
        simp
      · intro pr hpr
        rw [h0] at hpr
        simp only [List.nil_append, List.getLast?_singleton, Option.mem_some_iff] at hpr
        subst hpr
        exact le_refl _
      · intro h0idx
        rw [h0]
        exact Or.inr ⟨singleMax (win prices period i), by simp [h0idx]⟩
      · intro _
        simp
      · intro _
        omega
      · intro hg
        rw [← hwpi]
        exact hmono hg
    · have h1i : 1 ≤ i := hi1 (by rw [h0]; simp)
      refine ⟨?_, ?_, ?_, ?_, ?_, ?_⟩
      · rw [h0]
        simp only [List.cons_append, List.nil_append, List.map_cons, List.map_nil]
        refine List.chain'_cons.mpr ⟨by omega, List.chain'_singleton _⟩
      · intro pr hpr
        rw [h0] at hpr
        simp only [List.cons_append, List.nil_append, List.getLast?_cons_cons,
          List.getLast?_singleton, Option.mem_some_iff] at hpr
        subst hpr
        exact le_refl _
      · intro h0idx
        omega
      · intro _
        rw [h0]
        simp
      · intro _
        omega
      · intro hg
        rw [← hwpi]
        exact hmono hg
  · rw [if_pos hz]
    have houtne : st.out ≠ [] := hne0 hz
    have h1i : 1 ≤ i := hi1 houtne
    have hlastle : st.lastIdx ≤ i + li := by rw [← hwpi]; exact hmon hfull
    by_cases hclose : i + li ≤ st.lastIdx + closest
    · rw [if_pos hclose]
      by_cases hlt : singleMax (win prices period i) < st.lastVal
      · rw [if_pos hlt]
        refine ⟨_, rfl, ?_⟩
        unfold PeakInv
        dsimp only
        refine ⟨hch, ?_, ?_, ?_, ?_, ?_⟩
        · intro pr hpr
          exact le_trans (hlast pr hpr) hlastle
        · intro h0idx
          omega
        · intro _
          exact houtne
        · intro _
          omega
        · intro hg
          rw [← hwpi]
          exact hmono hg
      · rw [if_neg hlt]
        by_cases hgt : st.lastVal < singleMax (win prices period i)
        · rw [if_pos hgt]
          refine ⟨_, rfl, ?_⟩
          unfold PeakInv
          dsimp only
          have hch2 : List.Chain' (fun a c => a < c)
              ((st.out.dropLast ++ [st.out.getLast houtne]).map Prod.snd) := by
            rw [List.dropLast_append_getLast]
            exact hch
          rw [List.map_append, List.chain'_append] at hch2
          obtain ⟨hchd, _, hcross⟩ := hch2
          have hgl2 : (st.out.getLast houtne).2 ≤ st.lastIdx :=
            hlast _ (Option.mem_def.mpr (List.getLast?_eq_getLast st.out houtne))
          refine ⟨?_, ?_, ?_, ?_, ?_, ?_⟩
          · rw [List.map_append]
            simp only [List.map_cons, List.map_nil]
            refine chain'_snoc_lt _ _ hchd ?_
            intro a ha
            have := hcross a ha (st.out.getLast houtne).2 (by simp)
            omega
          · intro pr hpr
            simp only [List.getLast?_concat, Option.mem_some_iff] at hpr
            subst hpr
            exact le_refl _
          · intro h0idx
            omega
          · intro _
            simp
          · intro _
            omega
          · intro hg
            rw [← hwpi]
            exact hmono hg
        · rw [if_neg hgt]
          refine ⟨_, rfl, ?_⟩
          unfold PeakInv
          refine ⟨hch, hlast, hsent, hne0, fun _ => by omega, ?_⟩
          intro hg
          exact le_trans (hmon hfull) (hmono hg)
    · rw [if_neg hclose]
      by_cases hmem2 : (singleMax (win prices period i), i + li) ∈ st.out
      · rw [if_pos hmem2]
        refine ⟨_, rfl, ?_⟩
        unfold PeakInv
        refine ⟨hch, hlast, hsent, hne0, fun _ => by omega, ?_⟩
        intro hg
        exact le_trans (hmon hfull) (hmono hg)
      · rw [if_neg hmem2]
        refine ⟨_, rfl, ?_⟩
        unfold PeakInv
        dsimp only
        refine ⟨?_, ?_, ?_, ?_, ?_, ?_⟩
        · rw [List.map_append]
          simp only [List.map_cons, List.map_nil]
          refine chain'_snoc_lt _ _ hch ?_
          intro a ha
          rw [List.getLast?_map, Option.mem_def, Option.map_eq_some'] at ha
          obtain ⟨pr, hpr, ha⟩ := ha
          subst ha
          have := hlast pr (Option.mem_def.mpr hpr)
          omega
        · intro pr hpr
          simp only [List.getLast?_concat, Option.mem_some_iff] at hpr
          subst hpr
          exact le_refl _
        · intro h0idx
          omega
        · intro _
          simp
        · intro _
          omega
        · intro hg
          rw [← hwpi]
          exact hmono hg
theorem peaksGo_inv (prices : List ℚ) (period closest : ℕ) (hp : 1 ≤ period) :
    ∀ (steps i : ℕ) (st : ExtScan), i + steps + period ≤ prices.length + 1 →
      PeakInv prices period st i →
      ∃ st2, peaksGo prices period closest i steps st = .ok st2 ∧
        PeakInv prices period st2 (i + steps)
  | 0, i, st, _, hinv => ⟨st, rfl, hinv⟩
  | steps + 1, i, st, hbound, hinv => by
    obtain ⟨st1, hst1, hinv1⟩ :=
      peakStep_inv prices period closest st i hp (by omega) hinv
    obtain ⟨st2, hst2, hinv2⟩ :=
      peaksGo_inv prices period closest hp steps (i + 1) st1 (by omega) hinv1
    refine ⟨st2, ?_, by rw [show i + (steps + 1) = i + 1 + steps by omega]; exact hinv2⟩
    rw [peaksGo, hst1]
    exact hst2

theorem peaks_chain (prices : List ℚ) (period closest : ℕ) (res : List (ℚ × ℕ))
    (h : peaks prices period closest = .ok res) :
    List.Chain' (fun a c => a < c) (res.map Prod.snd) := by
  by_cases hgt : period > prices.length
  · rw [peaks, if_pos hgt] at h
    cases h
  · by_cases hp0 : period = 0
    · subst hp0
      rw [peaks, if_neg hgt] at h
    -- with period = 0 the first iteration's window is empty and the
    -- `rposition … unwrap()` panics, so `.ok` is impossible
      rw [show prices.length - 0 + 1 = prices.length + 1 from by omega, peaksGo] at h
      simp [peakStep, win, singleMax, rposAux] at h
    · have hp : 1 ≤ period := by omega
      have hinit : PeakInv prices period ⟨[], 0, 0⟩ 0 := by
        unfold PeakInv
        refine ⟨List.chain'_nil, ?_, fun _ => Or.inl rfl, ?_, ?_, ?_⟩
        · intro pr hpr
          simp at hpr
        · intro hc
          exact absurd rfl hc
        · intro hc
          exact absurd rfl hc
        · intro _
          exact Nat.zero_le _
      obtain ⟨st2, hst2, hinv2⟩ := peaksGo_inv prices period closest hp
        (prices.length - period + 1) 0 ⟨[], 0, 0⟩ (by omega) hinit
      rw [peaks, if_neg hgt, hst2] at h
      simp only [Except.ok.injEq] at h
      subst h
      unfold PeakInv at hinv2
      exact hinv2.1
theorem valleyStep_inv (prices : List ℚ) (period closest : ℕ) (st : ExtScan) (i : ℕ)
    (hp : 1 ≤ period) (hfull : i + period ≤ prices.length)
    (hinv : ValleyInv prices period st i) :
    ∃ st2, valleyStep prices period closest st i = .ok st2 ∧
      ValleyInv prices period st2 (i + 1) := by
  unfold ValleyInv at hinv
  obtain ⟨hch, hlast, hsent, hne0, hi1, hmon⟩ := hinv
  obtain ⟨hw1, hw2, hw3, hw4, hw5⟩ := winValleyIdx_spec prices period i hp hfull
  have hwl := win_length prices period i hfull
  have hwne : win prices period i ≠ [] := by
    intro hc
    rw [hc] at hwl
    simp at hwl
    omega
  obtain ⟨li, hli⟩ :
      ∃ k, rposAux (win prices period i) (singleMin (win prices period i)) = some k := by
    cases hrp : rposAux (win prices period i) (singleMin (win prices period i)) with
    | some k => exact ⟨k, rfl⟩
    | none => exact absurd (singleMin_mem _ hwne) (rposAux_none _ _ hrp)
  have hwpi : winValleyIdx prices period i = i + li := by simp [winValleyIdx, hli]
  have hmono : i + 1 + period ≤ prices.length →
      winValleyIdx prices period i ≤ winValleyIdx prices period (i + 1) :=
    fun h => winValleyIdx_mono prices period i hp h
  simp only [valleyStep, hli]
  by_cases hz : st.lastIdx = 0
  · rw [if_neg (by simp [hz])]
    refine ⟨_, rfl, ?_⟩
    unfold ValleyInv
    dsimp only
    rcases hsent hz with h0 | ⟨v, h0⟩
    · refine ⟨?_, ?_, ?_, ?_, ?_, ?_⟩
      · rw [h0]
        simp
      · intro pr hpr
        rw [h0] at hpr
        simp only [List.nil_append, List.getLast?_singleton, Option.mem_some_iff] at hpr
        subst hpr
        exact le_refl _
      · intro h0idx
        rw [h0]
        exact Or.inr ⟨singleMin (win prices period i), by simp [h0idx]⟩
      · intro _
        simp
      · intro _
        omega
      · intro hg
        rw [← hwpi]
        exact hmono hg
    · have h1i : 1 ≤ i := hi1 (by rw [h0]; simp)
      refine ⟨?_, ?_, ?_, ?_, ?_, ?_⟩
      · rw [h0]
        simp only [List.cons_append, List.nil_append, List.map_cons, List.map_nil]
        refine List.chain'_cons.mpr ⟨by omega, List.chain'_singleton _⟩
      · intro pr hpr
        rw [h0] at hpr
        simp only [List.cons_append, List.nil_append, List.getLast?_cons_cons,
          List.getLast?_singleton, Option.mem_some_iff] at hpr
        subst hpr
        exact le_refl _
      · intro h0idx
        omega
      · intro _
        rw [h0]
        simp
      · intro _
        omega
      · intro hg
        rw [← hwpi]
        exact hmono hg
  · rw [if_pos hz]
    have houtne : st.out ≠ [] := hne0 hz
    have h1i : 1 ≤ i := hi1 houtne
    have hlastle : st.lastIdx ≤ i + li := by rw [← hwpi]; exact hmon hfull
    by_cases hclose : i + li ≤ st.lastIdx + closest
    · rw [if_pos hclose]
      by_cases hlt : st.lastVal < singleMin (win prices period i)
      · rw [if_pos hlt]
        refine ⟨_, rfl, ?_⟩
        unfold ValleyInv
        dsimp only
        refine ⟨hch, ?_, ?_, ?_, ?_, ?_⟩
        · intro pr hpr
          exact le_trans (hlast pr hpr) hlastle
        · intro h0idx
          omega
        · intro _
          exact houtne
        · intro _
          omega
        · intro hg
          rw [← hwpi]
          exact hmono hg
      · rw [if_neg hlt]
        by_cases hgt : singleMin (win prices period i) < st.lastVal
        · rw [if_pos hgt]
          refine ⟨_, rfl, ?_⟩
          unfold ValleyInv
          dsimp only
          have hch2 : List.Chain' (fun a c => a < c)
              ((st.out.dropLast ++ [st.out.getLast houtne]).map Prod.snd) := by
            rw [List.dropLast_append_getLast]
            exact hch
          rw [List.map_append, List.chain'_append] at hch2
          obtain ⟨hchd, _, hcross⟩ := hch2
          have hgl2 : (st.out.getLast houtne).2 ≤ st.lastIdx :=
            hlast _ (Option.mem_def.mpr (List.getLast?_eq_getLast st.out houtne))
          refine ⟨?_, ?_, ?_, ?_, ?_, ?_⟩
          · rw [List.map_append]
            simp only [List.map_cons, List.map_nil]
            refine chain'_snoc_lt _ _ hchd ?_
            intro a ha
            have := hcross a ha (st.out.getLast houtne).2 (by simp)
            omega
          · intro pr hpr
            simp only [List.getLast?_concat, Option.mem_some_iff] at hpr
            subst hpr
            exact le_refl _
          · intro h0idx
            omega
          · intro _
            simp
          · intro _
            omega
          · intro hg
            rw [← hwpi]
            exact hmono hg
        · rw [if_neg hgt]
          refine ⟨_, rfl, ?_⟩
          unfold ValleyInv
          refine ⟨hch, hlast, hsent, hne0, fun _ => by omega, ?_⟩
          intro hg
          exact le_trans (hmon hfull) (hmono hg)
    · rw [if_neg hclose]
      by_cases hmem2 : (singleMin (win prices period i), i + li) ∈ st.out
      · rw [if_pos hmem2]
        refine ⟨_, rfl, ?_⟩
        unfold ValleyInv
        refine ⟨hch, hlast, hsent, hne0, fun _ => by omega, ?_⟩
        intro hg
        exact le_trans (hmon hfull) (hmono hg)
      · rw [if_neg hmem2]
        refine ⟨_, rfl, ?_⟩
        unfold ValleyInv
        dsimp only
        refine ⟨?_, ?_, ?_, ?_, ?_, ?_⟩
        · rw [List.map_append]
          simp only [List.map_cons, List.map_nil]
          refine chain'_snoc_lt _ _ hch ?_
          intro a ha
          rw [List.getLast?_map, Option.mem_def, Option.map_eq_some'] at ha
          obtain ⟨pr, hpr, ha⟩ := ha
          subst ha
          have := hlast pr (Option.mem_def.mpr hpr)
          omega
        · intro pr hpr
          simp only [List.getLast?_concat, Option.mem_some_iff] at hpr
          subst hpr
          exact le_refl _
        · intro h0idx
          omega
        · intro _
          simp
        · intro _
          omega
        · intro hg
          rw [← hwpi]
          exact hmono hg
theorem valleysGo_inv (prices : List ℚ) (period closest : ℕ) (hp : 1 ≤ period) :
    ∀ (steps i : ℕ) (st : ExtScan), i + steps + period ≤ prices.length + 1 →
      ValleyInv prices period st i →
      ∃ st2, valleysGo prices period closest i steps st = .ok st2 ∧
        ValleyInv prices period st2 (i + steps)
  | 0, i, st, _, hinv => ⟨st, rfl, hinv⟩
  | steps + 1, i, st, hbound, hinv => by
    obtain ⟨st1, hst1, hinv1⟩ :=
      valleyStep_inv prices period closest st i hp (by omega) hinv
    obtain ⟨st2, hst2, hinv2⟩ :=
      valleysGo_inv prices period closest hp steps (i + 1) st1 (by omega) hinv1
    refine ⟨st2, ?_, by rw [show i + (steps + 1) = i + 1 + steps by omega]; exact hinv2⟩
    rw [valleysGo, hst1]
    exact hst2

theorem valleys_chain (prices : List ℚ) (period closest : ℕ) (res : List (ℚ × ℕ))
    (h : valleys prices period closest = .ok res) :
    List.Chain' (fun a c => a < c) (res.map Prod.snd) := by
  by_cases hgt : period > prices.length
  · rw [valleys, if_pos hgt] at h
    cases h
  · by_cases hp0 : period = 0
    · subst hp0
      rw [valleys, if_neg hgt] at h
    -- with period = 0 the first iteration's window is empty and the
    -- `rposition … unwrap()` panics, so `.ok` is impossible
      rw [show prices.length - 0 + 1 = prices.length + 1 from by omega, valleysGo] at h
      simp [valleyStep, win, singleMin, rposAux] at h
    · have hp : 1 ≤ period := by omega
      have hinit : ValleyInv prices period ⟨[], 0, 0⟩ 0 := by
        unfold ValleyInv
        refine ⟨List.chain'_nil, ?_, fun _ => Or.inl rfl, ?_, ?_, ?_⟩
        · intro pr hpr
          simp at hpr
        · intro hc
          exact absurd rfl hc
        · intro hc
          exact absurd rfl hc
        · intro _
          exact Nat.zero_le _
      obtain ⟨st2, hst2, hinv2⟩ := valleysGo_inv prices period closest hp
        (prices.length - period + 1) 0 ⟨[], 0, 0⟩ (by omega) hinit
      rw [valleys, if_neg hgt, hst2] at h
      simp only [Except.ok.injEq] at h
      subst h
      unfold ValleyInv at hinv2
      exact hinv2.1

/-- C3: for every input series, period and closest-neighbor distance, whenever
`peaks` (or `valleys`) returns successfully, the returned list's indices are
strictly increasing, and consequently the (value, index) pairs are pairwise
distinct. -/
theorem peaks_valleys_strictly_increasing (prices : List ℚ) (period closest : ℕ)
    (res : List (ℚ × ℕ))
    (h : peaks prices period closest = .ok res ∨
      valleys prices period closest = .ok res) :
    List.Chain' (fun a b => a < b) (res.map Prod.snd) ∧ res.Nodup := by
  have hch : List.Chain' (fun a b => a < b) (res.map Prod.snd) := by
    rcases h with h | h
    · exact peaks_chain prices period closest res h
    · exact valleys_chain prices period closest res h
  refine ⟨hch, ?_⟩
  have hpw : List.Pairwise (fun a b => a < b) (res.map Prod.snd) :=
    List.chain'_iff_pairwise.mp hch
  have hnd : (res.map Prod.snd).Nodup := hpw.imp (fun h => Nat.ne_of_lt h)
  exact hnd.of_map Prod.snd

/-- Closed instance of `peaks_valleys_strictly_increasing` on the series
`[1, 3, 2]` with period 2, whose peak list is `[(3, 1)]`. -/
theorem peaks_valleys_strictly_increasing_witness :
    List.Chain' (fun a b => a < b) (([((3 : ℚ), 1)] : List (ℚ × ℕ)).map Prod.snd) ∧
    ([((3 : ℚ), 1)] : List (ℚ × ℕ)).Nodup :=
  peaks_valleys_strictly_increasing [1, 3, 2] 2 1 [(3, 1)]
    (Or.inl (by norm_num [peaks, peaksGo, peakStep, win, singleMax, rposAux]))
